import Mathlib

/-!
Verification of the SlateDB-backed append-only Merkle tree
(`ct-merkle/src/slatedb_backed_tree.rs` and `src/merkle_storage.rs`).

The key-value store is modelled as a function from byte-string keys to
optional byte-string values; a `WriteBatch` is the ordered list of puts it
accumulates, committed atomically by a left fold.  Machine integers are
modelled as `Nat` (the `u64` width enters only through the big-endian key
codec `be64` and the `u64::MAX / 2` fullness bound, which are written out
explicitly).  The injected hash function, the leaf serializer and the
deserializer are parameters (`Hs`, `hashLen`, `ser`, `deser`), exactly as
the Rust code takes them as type parameters.  The async structure of the
code is sequentialised: a `try_join_all` over independent reads becomes a
`mapM`, which has the same result because reads do not change the store.
The moka node cache is omitted: in `slatedb_backed_tree.rs` it is only ever
written (`cache.insert` in the prefetch loop), never read, so it has no
observable effect on any operation.
-/

namespace CompactLog

/-- Byte strings, as lists of naturals (each byte < 256 in real runs; the
codec takes residues mod 256 like `to_be_bytes` does). -/
abbrev Bytes := List Nat

/-- Big-endian 64-bit encoding, `u64::to_be_bytes`. -/
def be64 (n : Nat) : Bytes :=
  [n / 2 ^ 56 % 256, n / 2 ^ 48 % 256, n / 2 ^ 40 % 256, n / 2 ^ 32 % 256,
   n / 2 ^ 24 % 256, n / 2 ^ 16 % 256, n / 2 ^ 8 % 256, n % 256]

/-- Big-endian decoding, `u64::from_be_bytes`. -/
def be64dec (b : Bytes) : Nat := b.foldl (fun acc x => acc * 256 + x) 0

/-- Key of a leaf record: `"leaf:" ‖ be64(i)`. -/
def leafKey (i : Nat) : Bytes := [108, 101, 97, 102, 58] ++ be64 i

/-- Key of a current-node hash: `"node:" ‖ be64(x)`. -/
def nodeKey (x : Nat) : Bytes := [110, 111, 100, 101, 58] ++ be64 x

/-- Key of a versioned-node hash: `"vnode:" ‖ be64(x) ‖ '@' ‖ be64(N)`. -/
def versionedNodeKey (x version : Nat) : Bytes :=
  [118, 110, 111, 100, 101, 58] ++ be64 x ++ [64] ++ be64 version

/-- The metadata key `"meta"`. -/
def metaKey : Bytes := [109, 101, 116, 97]

/-!
## Index algebra

Modelled from the spec: the in-order index arithmetic (`level`, `parent`,
`sibling`, `is_left`, `root_idx` of `InternalIdx`) lives in the ct-merkle
crate's internal modules, which are not part of the sources here — only
`slatedb_backed_tree.rs` is.  Spec §4.1 and the glossary fix the semantics:
leaf `i` has in-order internal index `2·i` over the idealized infinite
tree; at tree size `N` only indices below the node count `2·N − 1` are
realized, and parents/children at the rightmost frontier skip the
idealized nodes that fall outside that range ("right subtrees can be
short").  The standard arithmetic for such left-balanced in-order trees is
used: the level of a node is the number of trailing one bits of its index,
the idealized parent of `x` at level `k` is `x + 2^k` or `x − 2^k`
according to bit `k+1` of `x`, and the realized parent iterates that step
until the index is in range.  The iterations are written with an explicit
fuel argument (they are `while` loops over machine integers); the fuel is
large enough for every index that can arise at the given tree size, which
is proved where the definitions are used.
-/

/-- Trailing-ones count, fuel-structured so that the kernel can evaluate
it (the fuel argument only needs to dominate the iteration count). -/
def levelAux : Nat → Nat → Nat
  | 0, _ => 0
  | fuel + 1, x => if x % 2 = 1 then levelAux fuel (x / 2) + 1 else 0

/-- Number of trailing one bits of `x`: the level (height) of the node with
in-order index `x`.  Leaves (even indices) have level 0. -/
def level (x : Nat) : Nat := levelAux x x

/-- Binary length, fuel-structured (`Nat.size` by another, kernel-reducible
recursion). -/
def sizeAux : Nat → Nat → Nat
  | 0, _ => 0
  | fuel + 1, n => if n = 0 then 0 else sizeAux fuel (n / 2) + 1

/-- Number of binary digits of `n` (equal to `Nat.size n`). -/
def binSize (n : Nat) : Nat := sizeAux n n

/-- Number of nodes of the tree with `n` leaves (`2n − 1`, and `n` for
`n < 2`): in-order indices `0 .. nodeWidth n − 1` are realized. -/
def nodeWidth (n : Nat) : Nat := if n < 2 then n else 2 * n - 1

/-- Parent of `x` in the idealized infinite tree. -/
def parentStep (x : Nat) : Nat :=
  if x / 2 ^ (level x + 1) % 2 = 0 then x + 2 ^ level x else x - 2 ^ level x

/-- Iterate `parentStep` until the index is realized at size `n`. -/
def parentAux (n : Nat) : Nat → Nat → Nat
  | 0, x => x
  | fuel + 1, x => if x < nodeWidth n then x else parentAux n fuel (parentStep x)

/-- Parent of `x` in the tree with `n` leaves: the nearest idealized
ancestor whose index is realized at size `n`. -/
def parent (x n : Nat) : Nat := parentAux n (x + n + 2) (parentStep x)

/-- Left child of an internal node (always realized when the node is). -/
def leftChild (x : Nat) : Nat := x - 2 ^ (level x - 1)

/-- Descend through left children until the index is realized at size `n`. -/
def rightChildAux (n : Nat) : Nat → Nat → Nat
  | 0, x => x
  | fuel + 1, x => if x < nodeWidth n then x else rightChildAux n fuel (leftChild x)

/-- Right child of an internal node in the tree with `n` leaves: the
idealized right child, clamped down-left to a realized index. -/
def rightChild (x n : Nat) : Nat := rightChildAux n (level x + 1) (x + 2 ^ (level x - 1))

/-- Whether `x` is the left child of its parent at size `n` (in-order:
left descendants have smaller indices than the parent). -/
def isLeft (x n : Nat) : Bool := x < parent x n

/-- Sibling of `x` in the tree with `n` leaves. -/
def sibling (x n : Nat) : Nat :=
  if isLeft x n then rightChild (parent x n) n else leftChild (parent x n)

/-- In-order index of the root of the tree with `n` leaves: the maximal
index whose subtree covers `[0, n)`, i.e. `2^⌈log₂ n⌉ − 1`. -/
def rootIdx (n : Nat) : Nat := 2 ^ binSize (n - 1) - 1

/-!
## Hash pipeline (spec §4.3) and store model
-/

section Ops

variable (Hs : Bytes → Bytes) (hashLen : Nat)
variable (ser : Bytes → Bytes) (deser : Bytes → Option Bytes)

/-- The all-zero hash `digest::Output::<H>::default()`. -/
def zeroHash : Bytes := List.replicate hashLen 0

/-- RFC 6962 leaf hash `H(0x00 ‖ item)`; the `HashableLeaf` instance of a
byte-vector leaf feeds its raw bytes. -/
def leafHashB (item : Bytes) : Bytes := Hs (0 :: item)

/-- RFC 6962 interior hash `H(0x01 ‖ L ‖ R)`. -/
def parentHashB (l r : Bytes) : Bytes := Hs (1 :: (l ++ r))

/-- Contents of the KV backend. -/
abbrev Store := Bytes → Option Bytes

/-- Point update, the effect of one `put`. -/
def Store.put (s : Store) (k v : Bytes) : Store :=
  fun k2 => if k2 = k then some v else s k2

/-- A store with no entries. -/
def emptyStore : Store := fun _ => none

/-- An ordered list of puts, `slatedb::WriteBatch`. -/
abbrev WriteBatch := List (Bytes × Bytes)

/-- Atomic commit of a batch: later puts win, as in `Db::write`. -/
def commit (s : Store) (b : WriteBatch) : Store :=
  b.foldl (fun s kv => Store.put s kv.1 kv.2) s

/-- Error type `SlateDbTreeError`; the `DbError` variant carries backend
failures, which the pure store model never produces. -/
inductive Err where
  | encodingError (msg : String)
  | inconsistentState (msg : String)
deriving DecidableEq

/-- A tree handle: the backing store plus the handle mode (`DbHandle`
is `ReadWrite` or `ReadOnly`). -/
structure Tree where
  store : Store
  readOnly : Bool

/-- `get_num_leaves`: read and decode `META`. -/
def getNumLeaves (t : Tree) : Except Err (Option Nat) :=
  match t.store metaKey with
  | some bytes =>
      if bytes.length = 8 then .ok (some (be64dec bytes))
      else .error (.encodingError "Invalid metadata")
  | none => .ok none

/-- `len`: the leaf count, defaulting to 0 when `META` is absent. -/
def len (t : Tree) : Except Err Nat := do
  return (← getNumLeaves t).getD 0

/-- `is_empty`. -/
def isEmpty (t : Tree) : Except Err Bool := do
  return (← len t) = 0

/-- `SlateDbBackedTree::new` over a read-write handle: writes `META ← 0`
on first use. -/
def newTree (s : Store) : Except Err Tree :=
  let t : Tree := ⟨s, false⟩
  match getNumLeaves t with
  | .error e => .error e
  | .ok none => .ok ⟨Store.put s metaKey (be64 0), false⟩
  | .ok (some _) => .ok t

/-- `SlateDbBackedTree::from_reader`: a read-only handle; no
initialization write. -/
def fromReader (s : Store) : Tree := ⟨s, true⟩

/-- Sibling indices recorded by the dependency-discovery loop of
`batch_push_with_data` for one new leaf: walk from the leaf's internal
index to `root_idx`, keeping siblings that preexist (`< 2·S`). -/
def pathSibs (sIdx : Nat) : Nat → Nat → Nat → List Nat
  | 0, _, _ => []
  | fuel + 1, curIdx, tsz =>
    if curIdx = rootIdx tsz then []
    else
      (if sibling curIdx tsz < sIdx * 2 then [sibling curIdx tsz] else []) ++
        pathSibs sIdx fuel (parent curIdx tsz) tsz

/-- All node indices prefetched for a batch of `k` items starting at
index `S` (the `nodes_to_prefetch` set; list order and duplicates are
irrelevant since it is only used for membership). -/
def prefetchIdxs (sIdx k : Nat) : List Nat :=
  (List.range k).flatMap fun i =>
    pathSibs sIdx (sIdx + i + 2) (2 * (sIdx + i)) (sIdx + i + 1)

/-- The prefetched-nodes map: for each discovered index present in the
store with the right hash width, its stored bytes (entries of the wrong
width are silently skipped, as in the `bytes.len() == hash.len()` guard). -/
def prefetchMap (t : Tree) (sIdx k : Nat) : Nat → Option Bytes :=
  fun idx =>
    if idx ∈ prefetchIdxs sIdx k then
      match t.store (nodeKey idx) with
      | some b => if b.length = hashLen then some b else none
      | none => none
    else none

/-- The sibling lookup of the `batch_push_with_data` hash loop:
`computed_hashes`, then the ghost test against `2·current_num_leaves`,
then `prefetched_nodes`, then a direct store read that zero-fills a
missing entry and rejects a wrong-width one. -/
def lookupSib (t : Tree) (prefetched computed : Nat → Option Bytes)
    (currentNumLeaves sibIdx : Nat) : Except Err Bytes :=
  match computed sibIdx with
  | some h => .ok h
  | none =>
    if currentNumLeaves * 2 ≤ sibIdx then .ok (zeroHash hashLen)
    else
      match prefetched sibIdx with
      | some h => .ok h
      | none =>
        match t.store (nodeKey sibIdx) with
        | some bytes =>
            if bytes.length = hashLen then .ok bytes
            else .error (.encodingError "Invalid hash size")
        | none => .ok (zeroHash hashLen)

/-- The `while cur_idx != root_idx` loop of `batch_push_with_data`: climb
from the new leaf to the root at size `current_num_leaves + 1`, appending
current-node and versioned-node puts and extending `computed_hashes`.
Fuel stands for the loop's termination, which the callers establish. -/
def climbB (t : Tree) (prefetched : Nat → Option Bytes) (currentNumLeaves : Nat) :
    Nat → Nat → Bytes → WriteBatch → (Nat → Option Bytes) →
    Except Err (WriteBatch × (Nat → Option Bytes))
  | 0, _, _, _, _ => .error (.inconsistentState "loop fuel exhausted")
  | fuel + 1, curIdx, curHash, batch, computed =>
    if curIdx = rootIdx (currentNumLeaves + 1) then .ok (batch, computed)
    else
      let parentIdx := parent curIdx (currentNumLeaves + 1)
      match lookupSib hashLen t prefetched computed currentNumLeaves
          (sibling curIdx (currentNumLeaves + 1)) with
      | .error e => .error e
      | .ok siblingHash =>
        let ph :=
          if isLeft curIdx (currentNumLeaves + 1) then parentHashB Hs curHash siblingHash
          else parentHashB Hs siblingHash curHash
        climbB t prefetched currentNumLeaves fuel parentIdx ph
          (batch ++ [(nodeKey parentIdx, ph),
                     (versionedNodeKey parentIdx (currentNumLeaves + 1), ph)])
          (fun i => if i = parentIdx then some ph else computed i)

/-- One iteration of the item loop of `batch_push_with_data`: serialize
and stage the leaf record, stage the leaf's node and versioned-node
hashes, then climb to the root. -/
def processItem (t : Tree) (prefetched : Nat → Option Bytes)
    (st : WriteBatch × (Nat → Option Bytes) × Nat) (item : Bytes) :
    Except Err (WriteBatch × (Nat → Option Bytes) × Nat) :=
  let currentNumLeaves := st.2.2
  let curIdx := 2 * currentNumLeaves
  let lh := leafHashB Hs item
  let batch := st.1 ++ [(leafKey currentNumLeaves, ser item),
                        (nodeKey curIdx, lh),
                        (versionedNodeKey curIdx (currentNumLeaves + 1), lh)]
  let computed := fun i => if i = curIdx then some lh else st.2.1 i
  match climbB Hs hashLen t prefetched currentNumLeaves (currentNumLeaves + 2)
      curIdx lh batch computed with
  | .error e => .error e
  | .ok (batch, computed) => .ok (batch, computed, currentNumLeaves + 1)

/-- `batch_push_with_data`: append `items` and co-commit `extras` in one
atomic batch; returns the starting index of the new items. -/
def batchPushWithData (t : Tree) (items : List Bytes)
    (extras : List (Bytes × Bytes)) : Except Err (Tree × Nat) := do
  let startingIndex ← len t
  if items.isEmpty ∧ extras.isEmpty then return (t, startingIndex)
  let prefetched := prefetchMap hashLen t startingIndex items.length
  let res ← items.foldlM (processItem Hs hashLen ser t prefetched)
      ([], fun _ => none, startingIndex)
  let batch := res.1 ++ [(metaKey, be64 res.2.2)] ++ extras
  if t.readOnly then
    .error (.inconsistentState "Cannot write to read-only database")
  else
    return (⟨commit t.store batch, t.readOnly⟩, startingIndex)

/-- `batch_push` is `batch_push_with_data` with no extra pairs. -/
def batchPush (t : Tree) (items : List Bytes) : Except Err (Tree × Nat) :=
  batchPushWithData Hs hashLen ser t items []

/-- The loop of `recalculate_path_batch` (used by `push`): like the batch
climb but the current hash is re-read from `computed_hashes` and the
sibling lookup has no ghost test and no prefetch map. -/
def recalcClimb (t : Tree) (numLeaves : Nat) :
    Nat → Nat → WriteBatch → (Nat → Option Bytes) → Except Err WriteBatch
  | 0, _, _, _ => .error (.inconsistentState "loop fuel exhausted")
  | fuel + 1, curIdx, batch, computed =>
    if curIdx = rootIdx numLeaves then .ok batch
    else
      let parentIdx := parent curIdx numLeaves
      match computed curIdx with
      | none =>
          .error (.inconsistentState
            ("Missing computed hash for node " ++ toString curIdx))
      | some curNode =>
        match
          (match computed (sibling curIdx numLeaves) with
           | some h => Except.ok h
           | none =>
             match t.store (nodeKey (sibling curIdx numLeaves)) with
             | some bytes =>
                 if bytes.length = hashLen then Except.ok bytes
                 else Except.error (Err.encodingError "Invalid hash size")
             | none => Except.ok (zeroHash hashLen)) with
        | .error e => .error e
        | .ok sib =>
          let ph :=
            if isLeft curIdx numLeaves then parentHashB Hs curNode sib
            else parentHashB Hs sib curNode
          recalcClimb t numLeaves fuel parentIdx
            (batch ++ [(nodeKey parentIdx, ph),
                       (versionedNodeKey parentIdx numLeaves, ph)])
            (fun i => if i = parentIdx then some ph else computed i)

/-- `recalculate_path_batch`: stage the leaf's node and versioned-node
hashes at the new size, then recompute the path to the root. -/
def recalculatePathBatch (t : Tree) (batch : WriteBatch) (leafIdx : Nat)
    (leafVal : Bytes) (numLeaves : Nat) : Except Err WriteBatch :=
  let curIdx := 2 * leafIdx
  let lh := leafHashB Hs leafVal
  recalcClimb Hs hashLen t numLeaves (numLeaves + 2) curIdx
    (batch ++ [(nodeKey curIdx, lh), (versionedNodeKey curIdx numLeaves, lh)])
    (fun i => if i = curIdx then some lh else none)

/-- `push`: append one item, guarded by the `u64::MAX / 2` fullness
check. -/
def push (t : Tree) (v : Bytes) : Except Err Tree := do
  let numLeaves ← len t
  if (2 ^ 64 - 1) / 2 ≤ numLeaves then
    .error (.inconsistentState "Tree is full")
  else
    match recalculatePathBatch Hs hashLen t [(leafKey numLeaves, ser v)]
        numLeaves v (numLeaves + 1) with
    | .error e => .error e
    | .ok batch =>
      if t.readOnly then
        .error (.inconsistentState "Cannot write to read-only database")
      else
        return ⟨commit t.store (batch ++ [(metaKey, be64 (numLeaves + 1))]),
                t.readOnly⟩

/-- `get_node_hash`: a current-node read that must find a value of the
hash width. -/
def getNodeHash (t : Tree) (idx : Nat) : Except Err Bytes :=
  match t.store (nodeKey idx) with
  | some bytes =>
      if bytes.length = hashLen then .ok bytes
      else .error (.encodingError "Invalid hash size")
  | none =>
      .error (.inconsistentState ("Missing node at index " ++ toString idx))

/-- `get_node_hash_at_version`: the versioned entry at `(idx, version)`,
falling back to the current-node entry when absent. -/
def getNodeHashAtVersion (t : Tree) (idx version : Nat) : Except Err Bytes :=
  match t.store (versionedNodeKey idx version) with
  | some bytes =>
      if bytes.length = hashLen then .ok bytes
      else .error (.encodingError "Invalid hash size")
  | none => getNodeHash hashLen t idx

/-- `root`: `H("")` with size 0 on the empty tree, otherwise the
current-node entry at `root_idx(num_leaves)`, paired with the size. -/
def root (t : Tree) : Except Err (Bytes × Nat) := do
  let numLeaves ← len t
  if numLeaves = 0 then return (Hs [], 0)
  else do
    let h ← getNodeHash hashLen t (rootIdx numLeaves)
    return (h, numLeaves)

/-- `get`: read and deserialize the leaf record at `idx`. -/
def get (t : Tree) (idx : Nat) : Except Err (Option Bytes) :=
  match t.store (leafKey idx) with
  | some bytes =>
      match deser bytes with
      | some leaf => .ok (some leaf)
      | none => .error (.encodingError "deserialize error")
  | none => .ok none

end Ops

/-!
## Consistency-proof index set

Modelled from the spec: `indices_for_consistency_proof(m, k)` lives in the
ct-merkle crate's `consistency` module, absent from the sources.  Spec
§4.1 fixes it as "the ordered list of internal indices proving that a tree
of size `m` is a prefix of a tree of size `m+k`, per RFC 6962 §2.1.2".
The RFC recursion is over leaf ranges; each range maps to the in-order
index of the subtree covering it.
-/

/-- In-order index of the node covering the `w`-leaf range starting at
leaf `off` (with `2^⌈log₂ w⌉` the node's idealized width). -/
def rangeNodeIdx (off w : Nat) : Nat :=
  off / 2 ^ binSize (w - 1) * 2 ^ (binSize (w - 1) + 1) + (2 ^ binSize (w - 1) - 1)

/-- RFC 6962 §2.1.2 `SUBPROOF(m, D[off .. off+n), b)` as an index list,
fuel-structured on the range width. -/
def subproofIdx : Nat → Bool → Nat → Nat → Nat → List Nat
  | 0, _, _, _, _ => []
  | fuel + 1, b, off, m, n =>
    if m = n then (if b then [] else [rangeNodeIdx off n])
    else
      if n ≤ 1 then []
      else
        let k := 2 ^ (binSize (n - 1) - 1)
        if m ≤ k then subproofIdx fuel b off m k ++ [rangeNodeIdx (off + k) (n - k)]
        else rangeNodeIdx off k :: subproofIdx fuel false (off + k) (m - k) (n - k)

/-- `indices_for_consistency_proof(num_leaves, num_additions)`. -/
def indicesForConsistencyProof (numLeaves numAdditions : Nat) : List Nat :=
  subproofIdx (numLeaves + numAdditions) true 0 numLeaves (numLeaves + numAdditions)

section Proofs

variable (Hs : Bytes → Bytes) (hashLen : Nat)

/-- `prove_consistency_between`: argument checks in source order, then the
proof hashes fetched through `get_node_hash_internal` (current-node
entries). -/
def proveConsistencyBetween (t : Tree) (oldSize newSize : Nat) :
    Except Err (List Bytes) :=
  if oldSize = 0 then
    .error (.inconsistentState "Cannot create consistency proof from empty tree")
  else if newSize < oldSize then
    .error (.inconsistentState
      ("Old size " ++ toString oldSize ++
        " must be less than or equal to new size " ++ toString newSize))
  else if oldSize = newSize then .ok []
  else do
    let currentSize ← len t
    if currentSize < newSize then
      .error (.inconsistentState
        ("New size " ++ toString newSize ++ " exceeds current tree size " ++
          toString currentSize))
    else
      (indicesForConsistencyProof oldSize (newSize - oldSize)).mapM
        (getNodeHash hashLen t)

end Proofs

/-- Errors of the `StorageBackedMerkleTree` wrapper (`CtError`); the
`Debug`-formatted storage message is kept structurally as the wrapped
tree error. -/
inductive CtErr where
  | badRequest (msg : String)
  | storage (e : Err)
deriving DecidableEq

section Wrapper

variable (hashLen : Nat)

/-- `StorageBackedMerkleTree::size`. -/
def sizeW (t : Tree) : Except CtErr Nat :=
  match len t with
  | .ok n => .ok n
  | .error e => .error (.storage e)

/-- `StorageBackedMerkleTree::consistency_proof_between_sizes`: the
wrapper's own argument checks, then `prove_consistency_between`. -/
def consistencyProofBetweenSizes (t : Tree) (oldTreeSize newTreeSize : Nat) :
    Except CtErr (List Bytes) :=
  if newTreeSize < oldTreeSize then
    .error (.badRequest "Old tree size cannot be larger than new tree size")
  else if oldTreeSize = newTreeSize then .ok []
  else if oldTreeSize = 0 then
    .error (.badRequest "Cannot produce consistency proof starting from empty tree")
  else
    match sizeW t with
    | .error e => .error e
    | .ok currentTreeSize =>
      if currentTreeSize < oldTreeSize then
        .error (.badRequest
          ("Old tree size " ++ toString oldTreeSize ++
            " exceeds current tree size " ++ toString currentTreeSize))
      else if currentTreeSize < newTreeSize then
        .error (.badRequest
          ("New tree size " ++ toString newTreeSize ++
            " exceeds current tree size " ++ toString currentTreeSize))
      else
        match proveConsistencyBetween hashLen t oldTreeSize newTreeSize with
        | .ok p => .ok p
        | .error e => .error (.storage e)

end Wrapper

/-!
## RFC 6962 reference tree

The spec-side reference: the Merkle tree hash of RFC 6962 §2.1, against
which claims C1 and C2 compare the store-backed implementation.
-/

section Reference

variable (Hs : Bytes → Bytes)

/-- RFC 6962 Merkle tree hash, fuel-structured on the list length. -/
def mthF : Nat → List Bytes → Bytes
  | 0, _ => Hs []
  | _ + 1, [] => Hs []
  | _ + 1, [x] => Hs (0 :: x)
  | fuel + 1, a :: b :: rest =>
    let l := a :: b :: rest
    let k := 2 ^ (binSize (l.length - 1) - 1)
    parentHashB Hs (mthF fuel (l.take k)) (mthF fuel (l.drop k))

/-- RFC 6962 Merkle tree hash: `MTH({}) = H("")`,
`MTH({d}) = H(0x00 ‖ d)`, and `MTH(D[n]) = H(0x01 ‖ MTH(D[0:k]) ‖
MTH(D[k:n]))` with `k` the largest power of two below `n`. -/
def mth (l : List Bytes) : Bytes := mthF Hs l.length l

end Reference

/-!
## Semantic layer

Definitions used to state the invariants: the contiguous leaf range
covered by a node given in canonical form, the reference hash of that
range, and the well-formedness predicate tying a store to a leaf list.
Every in-order index `x` has a unique canonical form
`a · 2^(k+1) + (2^k − 1)` with `k = level x`; the node covers leaves
`[a · 2^k, (a+1) · 2^k)`, clamped to the current size.
-/

/-- The sublist of leaves `[a, b)`. -/
def slice (L : List Bytes) (a b : Nat) : List Bytes := (L.drop a).take (b - a)

/-- The in-order index of the level-`k` node whose subtree starts at leaf
`a · 2^k`: every natural is `canonIdx (level x) (x / 2^(level x + 1))`. -/
def canonIdx (k a : Nat) : Nat := a * 2 ^ (k + 1) + (2 ^ k - 1)

section Semantic

variable (Hs : Bytes → Bytes)

/-- Reference hash of the node with canonical form `(k, a)` over leaves
`L`: the RFC 6962 hash of the covered (clamped) leaf range. -/
def nodeVal (L : List Bytes) (k a : Nat) : Bytes :=
  mth Hs (slice L (a * 2 ^ k) (min ((a + 1) * 2 ^ k) L.length))

/-- A store is well formed for leaf list `L` when `META` holds the leaf
count, every realized node entry holds the reference hash of its range,
and no other node entry (with an encodable index) is present. -/
structure GoodStore (L : List Bytes) (s : Store) : Prop where
  meta : s metaKey = some (be64 L.length)
  node : ∀ k a, canonIdx k a + 1 < 2 * L.length →
    s (nodeKey (canonIdx k a)) = some (nodeVal Hs L k a)
  nojunk : ∀ k a, canonIdx k a < 2 ^ 64 → ¬canonIdx k a + 1 < 2 * L.length →
    s (nodeKey (canonIdx k a)) = none

end Semantic

/-- Whether the level-`k` idealized ancestor of leaf `p` is realized in
the tree with `p + 1` leaves (so that it lies on the append path of leaf
`p`): always for `k = 0`, and for `k ≥ 1` exactly when bit `k − 1` of `p`
is set. -/
def onPath (p k : Nat) : Prop := k = 0 ∨ 2 ^ (k - 1) ≤ p % 2 ^ k

instance (p k : Nat) : Decidable (onPath p k) := by unfold onPath; infer_instance

/-- The level-`k` idealized ancestor of leaf `p`, in canonical form
`a · 2^(k+1) + (2^k − 1)` with `a = p / 2^k`. -/
def anc (p k : Nat) : Nat := canonIdx k (p / 2 ^ k)

/-- An operation of the append surface, for stating whole-history
claims. -/
inductive Op where
  | pushOp (v : Bytes)
  | batchOp (items : List Bytes)

/-- The leaves contributed by a list of operations, in order. -/
def leavesOf : List Op → List Bytes
  | [] => []
  | .pushOp v :: rest => v :: leavesOf rest
  | .batchOp items :: rest => items ++ leavesOf rest

section Run

variable (Hs : Bytes → Bytes) (hashLen : Nat) (ser : Bytes → Bytes)

/-- Run a sequence of `push` / `batch_push` calls against a tree
handle. -/
def runOps (t : Tree) : List Op → Except Err Tree
  | [] => .ok t
  | .pushOp v :: rest => do runOps (← push Hs hashLen ser t v) rest
  | .batchOp items :: rest => do
      runOps (← batchPush Hs hashLen ser t items).1 rest

end Run

/-!
## Concrete instances for witnesses and counterexamples

A small executable hash (output width 2) and the identity leaf codec,
used to instantiate the parametric theorems on concrete inputs.
-/

/-- A toy hash function of output width 2, for concrete evaluation. -/
def tinyHash (b : Bytes) : Bytes :=
  [b.length % 251, (b.foldl (fun a x => a * 31 + x) 7) % 251]

/-- Identity serializer (a stand-in for an injective `bincode` codec). -/
def idSer (b : Bytes) : Bytes := b

/-- Deserializer matching `idSer`. -/
def idDeser (b : Bytes) : Option Bytes := some b

/-- The store of a freshly opened read-write tree over an empty backend
(`META = 0`). -/
def initTree : Tree := ⟨Store.put emptyStore metaKey (be64 0), false⟩

/-- A store whose metadata records `u64::MAX / 2` leaves. -/
def fullTree : Tree := ⟨Store.put emptyStore metaKey (be64 (2 ^ 63 - 1)), false⟩

/-- The eight single-byte leaves of the C3 counterexample. -/
def cexItems : List Bytes := [[0], [1], [2], [3], [4], [5], [6], [7]]

/-- The tree obtained by batch-pushing `cexItems` into a fresh tree,
under `tinyHash`. -/
def cexTree : Tree :=
  ((batchPush tinyHash 2 idSer initTree cexItems).map (·.1)).toOption.getD
    (fromReader emptyStore)

/-- A read-only handle over a store holding three leaves' metadata. -/
def roTree : Tree := fromReader (Store.put emptyStore metaKey (be64 3))

/-- A handle at size 1 whose `node:0` entry has been lost, for the C8
zero-fill scenario (under an arbitrary hash function). -/
def corruptTree (Hs : Bytes → Bytes) (hashLen : Nat) : Tree :=
  match push Hs hashLen idSer initTree [5] with
  | .ok t => ⟨fun k => if k = nodeKey 0 then none else t.store k, t.readOnly⟩
  | .error _ => fromReader emptyStore

/-!
## Invariant vocabulary

Predicates tying the in-memory state of `batch_push_with_data` to the
invariant.  `S` is always the pre-call size (`starting_index`), `L` the
leaves accounted for so far, `M = L ++ [v]` the leaves including the item
being processed, `p = L.length` its position.
-/

section Invariants

variable (Hs : Bytes → Bytes) (hashLen : Nat) (ser : Bytes → Bytes)

/-- Mid-climb contents of `computed_hashes` while processing the item at
leaf position `p`: path nodes of `p` up to level `kc` hold hashes over
`M`; nodes written by earlier items of the batch (realized over `L` with
ideal range past `S`, possible only once `S < L.length`) hold hashes over
`L`; nothing else is present. -/
def CompAt (S : Nat) (L M : List Bytes) (p kc : Nat)
    (computed : Nat → Option Bytes) : Prop :=
  ∀ k a, computed (canonIdx k a) =
    if a = p / 2 ^ k ∧ k ≤ kc ∧ onPath p k then
      some (nodeVal Hs M k (p / 2 ^ k))
    else if canonIdx k a + 1 < 2 * L.length ∧ S < (a + 1) * 2 ^ k ∧
        S < L.length then
      some (nodeVal Hs L k a)
    else none

/-- Contents of `computed_hashes` between two items of a batch. -/
def CompBetween (S : Nat) (L : List Bytes) (computed : Nat → Option Bytes) :
    Prop :=
  ∀ k a, computed (canonIdx k a) =
    if canonIdx k a + 1 < 2 * L.length ∧ S < (a + 1) * 2 ^ k ∧
        S < L.length then
      some (nodeVal Hs L k a)
    else none

/-- The prefetched-nodes map only reports genuine store values of the
hash width. -/
def PrefOk (t : Tree) (prefetched : Nat → Option Bytes) : Prop :=
  ∀ x, prefetched x = none ∨
    ∃ b, t.store (nodeKey x) = some b ∧ b.length = hashLen ∧ prefetched x = some b

/-- Pointwise effect of the accumulated batch on an arbitrary base store:
leaf records of the new items, current-node entries of every node whose
range reaches past `S`, versioned entries only at the new versions, and
no other key touched. -/
def AccEff (S : Nat) (L : List Bytes) (batch : WriteBatch) : Prop :=
  ∀ s1 : Store,
    (∀ i (h : i < L.length), S ≤ i →
      commit s1 batch (leafKey i) = some (ser L[i])) ∧
    (∀ k a, canonIdx k a + 1 < 2 * L.length → S < (a + 1) * 2 ^ k →
      S < L.length → commit s1 batch (nodeKey (canonIdx k a)) =
        some (nodeVal Hs L k a)) ∧
    (∀ key, (∀ i, S ≤ i → i < L.length → key ≠ leafKey i) →
      (∀ k a, canonIdx k a + 1 < 2 * L.length → S < (a + 1) * 2 ^ k →
        key ≠ nodeKey (canonIdx k a)) →
      (∀ x ver, S < ver → ver ≤ L.length → key ≠ versionedNodeKey x ver) →
      commit s1 batch key = s1 key)

end Invariants

/-!
## Codec lemmas
-/

theorem be64_length (n : Nat) : (be64 n).length = 8 := rfl

theorem be64dec_be64 (n : Nat) (h : n < 2 ^ 64) : be64dec (be64 n) = n := by
  simp only [be64, be64dec, List.foldl]
  omega

theorem be64_inj (a b : Nat) (ha : a < 2 ^ 64) (hb : b < 2 ^ 64)
    (h : be64 a = be64 b) : a = b := by
  have := congrArg be64dec h
  rwa [be64dec_be64 a ha, be64dec_be64 b hb] at this

theorem nodeKey_inj (a b : Nat) (ha : a < 2 ^ 64) (hb : b < 2 ^ 64)
    (h : nodeKey a = nodeKey b) : a = b := by
  apply be64_inj a b ha hb
  simpa [nodeKey] using h

theorem leafKey_inj (a b : Nat) (ha : a < 2 ^ 64) (hb : b < 2 ^ 64)
    (h : leafKey a = leafKey b) : a = b := by
  apply be64_inj a b ha hb
  simpa [leafKey] using h

theorem nodeKey_ne_metaKey (a : Nat) : nodeKey a ≠ metaKey := by
  simp [nodeKey, metaKey, be64]

theorem nodeKey_ne_leafKey (a b : Nat) : nodeKey a ≠ leafKey b := by
  simp [nodeKey, leafKey]

theorem nodeKey_ne_versionedNodeKey (a b v : Nat) :
    nodeKey a ≠ versionedNodeKey b v := by
  simp [nodeKey, versionedNodeKey]

theorem leafKey_ne_metaKey (a : Nat) : leafKey a ≠ metaKey := by
  simp [leafKey, metaKey, be64]

theorem leafKey_ne_versionedNodeKey (a b v : Nat) :
    leafKey a ≠ versionedNodeKey b v := by
  simp [leafKey, versionedNodeKey]

theorem versionedNodeKey_ne_metaKey (a v : Nat) :
    versionedNodeKey a v ≠ metaKey := by
  simp [versionedNodeKey, metaKey, be64]

/-!
## Store lemmas
-/

theorem commit_append (s : Store) (b1 b2 : WriteBatch) :
    commit s (b1 ++ b2) = commit (commit s b1) b2 := by
  simp [commit, List.foldl_append]

theorem commit_single (s : Store) (k v : Bytes) :
    commit s [(k, v)] = Store.put s k v := rfl

theorem Store.put_self (s : Store) (k v : Bytes) : Store.put s k v k = some v := by
  simp [Store.put]

theorem Store.put_other (s : Store) (k v : Bytes) (k2 : Bytes) (h : k2 ≠ k) :
    Store.put s k v k2 = s k2 := by
  simp [Store.put, h]

/-- A key none of whose batch entries mention it reads through a
commit unchanged. -/
theorem commit_notin (s : Store) (b : WriteBatch) (k : Bytes)
    (h : ∀ kv ∈ b, kv.1 ≠ k) : commit s b k = s k := by
  induction b generalizing s with
  | nil => rfl
  | cons kv rest ih =>
    have hk : kv.1 ≠ k := h kv (List.mem_cons_self kv rest)
    have h2 := ih (Store.put s kv.1 kv.2) (fun x hx => h x (List.mem_cons_of_mem kv hx))
    have h3 : Store.put s kv.1 kv.2 k = s k := Store.put_other s kv.1 kv.2 k (Ne.symm hk)
    simpa [commit, h3] using h2

/-!
## Easy operation lemmas
-/

theorem len_of_meta (t : Tree) (n : Nat) (hn : n < 2 ^ 64)
    (h : t.store metaKey = some (be64 n)) : len t = .ok n := by
  simp [len, getNumLeaves, h, be64_length, be64dec_be64 n hn, bind, Except.bind, pure,
    Except.pure]

theorem len_of_none (t : Tree) (h : t.store metaKey = none) : len t = .ok 0 := by
  simp [len, getNumLeaves, h, bind, Except.bind, pure, Except.pure]

/-- The path-recomputation loop never reports the tree-full error: its
errors are fuel exhaustion, a missing computed hash, or a hash-width
mismatch. -/
theorem recalcClimb_ne_full (Hs : Bytes → Bytes) (hashLen : Nat) (t : Tree)
    (n : Nat) :
    ∀ fuel curIdx batch computed e,
      recalcClimb Hs hashLen t n fuel curIdx batch computed = .error e →
      e ≠ .inconsistentState "Tree is full" := by
  intro fuel
  induction fuel with
  | zero =>
    intro curIdx batch computed e h
    simp only [recalcClimb] at h
    cases h
    intro hc
    have := congrArg (fun x => match x with
      | Err.inconsistentState m => m | _ => "") hc
    simp only at this
    have h2 := congrArg String.length this
    simp [String.length] at h2
  | succ fuel ih =>
    intro curIdx batch computed e h
    simp only [recalcClimb] at h
    split at h
    · cases h
    · split at h
      · cases h
        intro hc
        have := congrArg (fun x => match x with
          | Err.inconsistentState m => m | _ => "") hc
        simp only at this
        have h2 := congrArg String.length this
        rw [String.length_append] at h2
        have h3 : ("Missing computed hash for node ").length = 31 := rfl
        have h4 : ("Tree is full").length = 12 := rfl
        omega
      · split at h
        · rename_i e2 heq
          cases h
          intro hc
          rw [hc] at heq
          revert heq
          split
          · intro hh
            simp at hh
          · split
            · split
              · intro hh
                simp at hh
              · intro hh
                simp [Except.error.injEq] at hh
            · intro hh
              simp at hh
        · exact ih _ _ _ _ h

/-- C4 amended, core statement: the tree-full error occurs exactly at
the code's threshold `u64::MAX / 2 = 2^63 − 1`, and a successful push
increments the recorded size. -/
theorem push_full_iff (Hs : Bytes → Bytes) (hashLen : Nat) (ser : Bytes → Bytes)
    (t : Tree) (v : Bytes) (n : Nat) (hlen : len t = .ok n) :
    (push Hs hashLen ser t v = .error (.inconsistentState "Tree is full") ↔
      2 ^ 63 - 1 ≤ n) ∧
    (∀ t2, push Hs hashLen ser t v = .ok t2 → len t2 = .ok (n + 1)) := by
  simp only [push, hlen, bind, Except.bind]
  by_cases hn : (2 ^ 64 - 1) / 2 ≤ n
  · rw [if_pos hn]
    refine ⟨⟨fun _ => by omega, fun _ => rfl⟩, ?_⟩
    intro t2 h
    cases h
  · rw [if_neg hn]
    have hn2 : ¬2 ^ 63 - 1 ≤ n := by omega
    constructor
    · constructor
      · intro h
        exfalso
        revert h
        rcases hr : recalculatePathBatch Hs hashLen t [(leafKey n, ser v)] n v (n + 1) with e | batch
        · simp only [hr]
          intro h
          cases h
          simp only [recalculatePathBatch] at hr
          exact recalcClimb_ne_full Hs hashLen t (n + 1) _ _ _ _ _ hr rfl
        · simp only [hr]
          split
          · intro h
            simp at h
          · intro h
            cases h
      · intro h
        exact absurd h hn2
    · intro t2 h
      revert h
      rcases hr : recalculatePathBatch Hs hashLen t [(leafKey n, ser v)] n v (n + 1) with e | batch
      · simp only [hr]
        intro h
        cases h
      · simp only [hr]
        split
        · intro h
          cases h
        · intro h
          rcases h with ⟨⟩
          have hcommit :
              commit t.store (batch ++ [(metaKey, be64 (n + 1))]) metaKey =
                some (be64 (n + 1)) := by
            rw [commit_append, commit_single]
            exact Store.put_self _ _ _
          exact len_of_meta _ (n + 1) (by omega) hcommit

/-- C5 amended, core statement: for `0 < m < N` with `N` beyond the
current size, both the engine call and the wrapper fail. -/
theorem consistency_size_check (hashLen : Nat) (t : Tree) (m N L : Nat)
    (hlen : len t = .ok L) (hm : 0 < m) (hmN : m < N) (hL : L < N) :
    proveConsistencyBetween hashLen t m N =
      .error (.inconsistentState ("New size " ++ toString N ++
        " exceeds current tree size " ++ toString L)) ∧
    ∃ msg, consistencyProofBetweenSizes hashLen t m N =
      .error (.badRequest msg) := by
  constructor
  · simp only [proveConsistencyBetween]
    rw [if_neg (by omega), if_neg (by omega), if_neg (by omega)]
    simp only [hlen, bind, Except.bind]
    rw [if_pos hL]
  · simp only [consistencyProofBetweenSizes, sizeW, hlen]
    rw [if_neg (by omega), if_neg (by omega), if_neg (by omega)]
    by_cases hLm : L < m
    · exact ⟨_, by rw [if_pos hLm]⟩
    · exact ⟨_, by rw [if_neg hLm, if_pos hL]⟩

/-- C7: an empty batch with no extras is a no-op returning the current
size, with the handle (hence every key-value entry) unchanged. -/
theorem batch_noop (Hs : Bytes → Bytes) (hashLen : Nat) (ser : Bytes → Bytes)
    (t : Tree) (S : Nat) (hlen : len t = .ok S) :
    batchPushWithData Hs hashLen ser t [] [] = .ok (t, S) := by
  simp [batchPushWithData, hlen, bind, Except.bind, List.isEmpty, pure, Except.pure]

/-- C10: a store without a `META` entry reads as the empty tree. -/
theorem len_no_meta (t : Tree) (h : t.store metaKey = none) :
    len t = .ok 0 ∧ isEmpty t = .ok true := by
  refine ⟨len_of_none t h, ?_⟩
  simp [isEmpty, len_of_none t h, bind, Except.bind, pure, Except.pure]

/-- C4 counterexample: at `num_leaves = 2^63 − 1 < 2^63` the fullness
check already fails, against the claimed `2^63` threshold. -/
theorem c4_cex :
    len fullTree = .ok (2 ^ 63 - 1) ∧ 2 ^ 63 - 1 < 2 ^ 63 ∧
    push tinyHash 2 idSer fullTree [1] =
      .error (.inconsistentState "Tree is full") :=
  ⟨rfl, by norm_num, rfl⟩

/-- C4 witness: the tree-full criterion applied at the threshold. -/
theorem c4_witness :
    push tinyHash 2 idSer fullTree [1] =
      .error (.inconsistentState "Tree is full") ↔ 2 ^ 63 - 1 ≤ 2 ^ 63 - 1 :=
  (push_full_iff tinyHash 2 idSer fullTree [1] (2 ^ 63 - 1) (by rfl)).1

/-- C5 counterexample: with `m = N = 5` beyond the current size 0, both
the engine call and the wrapper return an empty proof instead of
failing. -/
theorem c5_cex :
    newTree emptyStore = .ok initTree ∧ len initTree = .ok 0 ∧ (0 : Nat) < 5 ∧
    proveConsistencyBetween 32 initTree 5 5 = .ok [] ∧
    consistencyProofBetweenSizes 32 initTree 5 5 = .ok [] :=
  ⟨rfl, rfl, by omega, rfl, rfl⟩

/-- C5 witness: the size check applied at `m = 1 < N = 2` on the empty
tree. -/
theorem c5_witness :
    proveConsistencyBetween 32 initTree 1 2 =
      .error (.inconsistentState ("New size " ++ toString (2 : Nat) ++
        " exceeds current tree size " ++ toString (0 : Nat))) :=
  (consistency_size_check 32 initTree 1 2 0 rfl (by omega) (by omega) (by omega)).1

/-- C7 witness: the no-op batch on a freshly opened tree. -/
theorem c7_witness :
    batchPushWithData tinyHash 2 idSer initTree [] [] = .ok (initTree, 0) :=
  batch_noop tinyHash 2 idSer initTree 0 rfl

/-- C10 witness: a read-only handle over a store never opened
read-write. -/
theorem c10_witness :
    len (fromReader emptyStore) = .ok 0 ∧
    isEmpty (fromReader emptyStore) = .ok true :=
  len_no_meta (fromReader emptyStore) rfl

/-!
## Index algebra lemmas

The canonical-form calculus: every in-order index is
`canonIdx k a = a·2^(k+1) + (2^k − 1)` for a unique `(k, a)`; the node
covers leaves `[a·2^k, (a+1)·2^k)`.  The level-`k` idealized ancestor of
leaf `p` is `anc p k = canonIdx k (p / 2^k)`, and the realized ones at
size `p + 1` are exactly the levels `k` with `onPath p k`.
-/

theorem levelAux_congr : ∀ f1 f2 x, x ≤ f1 → x ≤ f2 →
    levelAux f1 x = levelAux f2 x := by
  intro f1
  induction f1 with
  | zero =>
    intro f2 x h1 _
    interval_cases x
    cases f2 <;> simp [levelAux]
  | succ f1 ih =>
    intro f2 x h1 h2
    cases f2 with
    | zero =>
      interval_cases x
      simp [levelAux]
    | succ f2 =>
      simp only [levelAux]
      by_cases hx : x % 2 = 1
      · rw [if_pos hx, if_pos hx, ih f2 (x / 2) (by omega) (by omega)]
      · rw [if_neg hx, if_neg hx]

theorem level_even (x : Nat) (h : x % 2 = 0) : level x = 0 := by
  unfold level
  cases x with
  | zero => rfl
  | succ m =>
    simp only [levelAux]
    rw [if_neg (by omega)]

theorem level_odd (x : Nat) (h : x % 2 = 1) : level x = level (x / 2) + 1 := by
  unfold level
  cases x with
  | zero => omega
  | succ m =>
    show levelAux (m + 1) (m + 1) = _
    simp only [levelAux]
    rw [if_pos h, levelAux_congr m ((m + 1) / 2) ((m + 1) / 2) (by omega) (by omega)]

theorem sizeAux_congr : ∀ f1 f2 n, n ≤ f1 → n ≤ f2 →
    sizeAux f1 n = sizeAux f2 n := by
  intro f1
  induction f1 with
  | zero =>
    intro f2 n h1 _
    interval_cases n
    cases f2 <;> simp [sizeAux]
  | succ f1 ih =>
    intro f2 n h1 h2
    cases f2 with
    | zero =>
      interval_cases n
      simp [sizeAux]
    | succ f2 =>
      simp only [sizeAux]
      by_cases hn : n = 0
      · rw [if_pos hn, if_pos hn]
      · rw [if_neg hn, if_neg hn, ih f2 (n / 2) (by omega) (by omega)]

theorem binSize_zero : binSize 0 = 0 := rfl

theorem binSize_rec (n : Nat) (h : n ≠ 0) : binSize n = binSize (n / 2) + 1 := by
  unfold binSize
  cases n with
  | zero => omega
  | succ m =>
    show sizeAux (m + 1) (m + 1) = _
    simp only [sizeAux]
    rw [if_neg (by omega),
      sizeAux_congr m ((m + 1) / 2) ((m + 1) / 2) (by omega) (by omega)]

theorem binSize_pos (n : Nat) (h : 1 ≤ n) : 1 ≤ binSize n := by
  rw [binSize_rec n (by omega)]
  omega

theorem lt_two_pow_binSize (n : Nat) : n < 2 ^ binSize n := by
  induction n using Nat.strong_induction_on with
  | _ n ih =>
    cases n with
    | zero => simp [binSize_zero]
    | succ m =>
      rw [binSize_rec (m + 1) (by omega), pow_succ]
      have := ih ((m + 1) / 2) (by omega)
      omega

theorem two_pow_binSize_pred_le (n : Nat) (h : 1 ≤ n) :
    2 ^ (binSize n - 1) ≤ n := by
  induction n using Nat.strong_induction_on with
  | _ n ih =>
    match n, h with
    | 1, _ => decide
    | m + 2, _ =>
      rw [binSize_rec (m + 2) (by omega)]
      have h1 : 1 ≤ (m + 2) / 2 := by omega
      have h2 := ih ((m + 2) / 2) (by omega) h1
      have h3 := binSize_pos ((m + 2) / 2) h1
      have h4 : binSize ((m + 2) / 2) + 1 - 1 = (binSize ((m + 2) / 2) - 1) + 1 := by
        omega
      rw [h4, pow_succ]
      omega

theorem binSize_le_self (n : Nat) : binSize n ≤ n + 1 := by
  induction n using Nat.strong_induction_on with
  | _ n ih =>
    cases n with
    | zero => simp [binSize_zero]
    | succ m =>
      rw [binSize_rec (m + 1) (by omega)]
      have := ih ((m + 1) / 2) (by omega)
      omega

theorem binSize_unique (m j : Nat) (hj : 1 ≤ j) (h1 : 2 ^ (j - 1) ≤ m)
    (h2 : m < 2 ^ j) : binSize m = j := by
  have hm : 1 ≤ m := le_trans Nat.one_le_two_pow h1
  have ha := lt_two_pow_binSize m
  have hc := two_pow_binSize_pred_le m hm
  have hbs : 1 ≤ binSize m := binSize_pos m hm
  have hlt1 : binSize m - 1 < j := by
    by_contra hcon
    have : 2 ^ j ≤ 2 ^ (binSize m - 1) :=
      Nat.pow_le_pow_right (by omega) (by omega)
    omega
  have hlt2 : j - 1 < binSize m := by
    by_contra hcon
    have : 2 ^ binSize m ≤ 2 ^ (j - 1) :=
      Nat.pow_le_pow_right (by omega) (by omega)
    omega
  omega

theorem canonIdx_add_one (k a : Nat) : canonIdx k a + 1 = (2 * a + 1) * 2 ^ k := by
  have h : 1 ≤ 2 ^ k := Nat.one_le_two_pow
  have e : (2 * a + 1) * 2 ^ k = a * 2 ^ (k + 1) + 2 ^ k := by ring
  unfold canonIdx
  omega

theorem canonIdx_zero (a : Nat) : canonIdx 0 a = 2 * a := by
  have := canonIdx_add_one 0 a
  omega

theorem canonIdx_succ (k a : Nat) : canonIdx (k + 1) a = 2 * canonIdx k a + 1 := by
  have h1 := canonIdx_add_one (k + 1) a
  have h2 := canonIdx_add_one k a
  have e : (2 * a + 1) * 2 ^ (k + 1) = 2 * ((2 * a + 1) * 2 ^ k) := by ring
  omega

theorem level_canon (k a : Nat) : level (canonIdx k a) = k := by
  induction k generalizing a with
  | zero =>
    rw [canonIdx_zero]
    exact level_even (2 * a) (by omega)
  | succ k ih =>
    rw [canonIdx_succ]
    rw [level_odd (2 * canonIdx k a + 1) (by omega)]
    have hd : (2 * canonIdx k a + 1) / 2 = canonIdx k a := by omega
    rw [hd, ih a]

theorem canon_div (k a : Nat) : canonIdx k a / 2 ^ (k + 1) = a := by
  unfold canonIdx
  have h1 : 1 ≤ 2 ^ k := Nat.one_le_two_pow
  have h2 : 2 ^ k - 1 < 2 ^ (k + 1) := by
    have : 2 ^ (k + 1) = 2 ^ k * 2 := pow_succ 2 k
    omega
  rw [add_comm, Nat.add_mul_div_right _ _ (Nat.pos_of_ne_zero (by positivity)),
    Nat.div_eq_of_lt h2]
  omega

theorem canon_inj (k1 a1 k2 a2 : Nat) (h : canonIdx k1 a1 = canonIdx k2 a2) :
    k1 = k2 ∧ a1 = a2 := by
  have hk : k1 = k2 := by
    have := congrArg level h
    rwa [level_canon, level_canon] at this
  subst hk
  refine ⟨rfl, ?_⟩
  have := congrArg (· / 2 ^ (k1 + 1)) h
  simpa [canon_div] using this

theorem canon_surj (x : Nat) : x = canonIdx (level x) (x / 2 ^ (level x + 1)) := by
  induction x using Nat.strong_induction_on with
  | _ x ih =>
    by_cases hx : x % 2 = 1
    · have hlv := level_odd x hx
      have hy := ih (x / 2) (by omega)
      rw [hlv]
      rw [canonIdx_succ]
      have hdd : x / 2 ^ (level (x / 2) + 1 + 1) = x / 2 / 2 ^ (level (x / 2) + 1) := by
        rw [Nat.div_div_eq_div_mul]
        congr 1
        rw [pow_succ]
        ring
      rw [hdd, ← hy]
      omega
    · rw [level_even x (by omega), canonIdx_zero]
      omega

theorem parentStep_canon (k a : Nat) :
    parentStep (canonIdx k a) = canonIdx (k + 1) (a / 2) := by
  unfold parentStep
  rw [level_canon, canon_div]
  have h1 := canonIdx_add_one k a
  have h2 := canonIdx_add_one (k + 1) (a / 2)
  have hp : 1 ≤ 2 ^ k := Nat.one_le_two_pow
  by_cases ha : a % 2 = 0
  · rw [if_pos ha]
    have e1 : (2 * a + 1) * 2 ^ k + 2 ^ k = (a + 1) * 2 * 2 ^ k := by ring
    have e2 : (2 * (a / 2) + 1) * 2 ^ (k + 1) = (2 * (a / 2) + 1) * 2 * 2 ^ k := by
      rw [pow_succ]
      ring
    have e3 : 2 * (a / 2) + 1 = a + 1 := by omega
    have e4 : (2 * (a / 2) + 1) * 2 * 2 ^ k = (a + 1) * 2 * 2 ^ k := by rw [e3]
    omega
  · rw [if_neg ha]
    have e3 : 2 * (a / 2) + 1 = a := by omega
    have e2 : (2 * (a / 2) + 1) * 2 ^ (k + 1) = (2 * (a / 2) + 1) * 2 * 2 ^ k := by
      rw [pow_succ]
      ring
    have e4 : (2 * (a / 2) + 1) * 2 * 2 ^ k = a * 2 * 2 ^ k := by rw [e3]
    have e1 : (2 * a + 1) * 2 ^ k = a * 2 * 2 ^ k + 2 ^ k := by ring
    omega

theorem anc_zero (p : Nat) : anc p 0 = 2 * p := by
  unfold anc
  rw [pow_zero, Nat.div_one, canonIdx_zero]

theorem parentStep_anc (p k : Nat) : parentStep (anc p k) = anc p (k + 1) := by
  unfold anc
  rw [parentStep_canon]
  congr 1
  rw [Nat.div_div_eq_div_mul, pow_succ]

theorem nodeWidth_lt (x n : Nat) : x < nodeWidth n ↔ x + 1 < 2 * n := by
  unfold nodeWidth
  split <;> omega

theorem anc_realized_iff (p k : Nat) :
    anc p k + 1 < 2 * (p + 1) ↔ onPath p k := by
  unfold anc onPath
  rw [canonIdx_add_one]
  rcases Nat.eq_zero_or_pos k with hk | hk
  · subst hk
    have hd : p / 2 ^ 0 = p := by rw [pow_zero, Nat.div_one]
    rw [hd]
    constructor
    · intro _
      exact Or.inl rfl
    · intro _
      have : (2 * p + 1) * 2 ^ 0 = 2 * p + 1 := by rw [pow_zero, mul_one]
      omega
  · have hq : 2 ^ k = 2 * 2 ^ (k - 1) := by
      conv_lhs => rw [show k = (k - 1) + 1 by omega]
      rw [pow_succ]
      ring
    have hdm := Nat.div_add_mod p (2 ^ k)
    have hmlt : p % 2 ^ k < 2 ^ k := Nat.mod_lt p (by positivity)
    have e1 : (2 * (p / 2 ^ k) + 1) * 2 ^ k = 2 * (2 ^ k * (p / 2 ^ k)) + 2 ^ k := by
      ring
    have key : (2 * (p / 2 ^ k) + 1) * 2 ^ k < 2 * (p + 1) ↔
        2 ^ (k - 1) ≤ p % 2 ^ k := by omega
    rw [key]
    constructor
    · exact Or.inr
    · rintro (h | h)
      · omega
      · exact h

theorem rootIdx_eq_anc (p : Nat) : rootIdx (p + 1) = anc p (binSize p) := by
  unfold rootIdx anc
  simp only [Nat.add_sub_cancel]
  rw [Nat.div_eq_of_lt (lt_two_pow_binSize p)]
  unfold canonIdx
  simp

theorem onPath_binSize (p : Nat) : onPath p (binSize p) := by
  rcases Nat.eq_zero_or_pos p with hp | hp
  · subst hp
    exact Or.inl binSize_zero
  · right
    have h1 := two_pow_binSize_pred_le p hp
    have h2 := lt_two_pow_binSize p
    rw [Nat.mod_eq_of_lt h2]
    exact h1

theorem not_onPath_gt (p k : Nat) (h : binSize p < k) : ¬onPath p k := by
  rintro (h0 | hle)
  · omega
  · have h2 := lt_two_pow_binSize p
    have h3 : 2 ^ binSize p ≤ 2 ^ k := Nat.pow_le_pow_right (by omega) (by omega)
    rw [Nat.mod_eq_of_lt (by omega)] at hle
    have h4 : 2 ^ binSize p ≤ 2 ^ (k - 1) := Nat.pow_le_pow_right (by omega) (by omega)
    omega

theorem parentAux_path (p : Nat) : ∀ fuel k j, k < j → onPath p j →
    (∀ i, k < i → i < j → ¬onPath p i) → j - k ≤ fuel →
    parentAux (p + 1) fuel (anc p (k + 1)) = anc p j := by
  intro fuel
  induction fuel with
  | zero =>
    intro k j h1 _ _ h4
    omega
  | succ fuel ih =>
    intro k j h1 h2 h3 h4
    simp only [parentAux]
    by_cases hkj : k + 1 = j
    · subst hkj
      rw [if_pos ((nodeWidth_lt _ _).mpr ((anc_realized_iff p (k + 1)).mpr h2))]
    · have hnp : ¬onPath p (k + 1) := h3 (k + 1) (by omega) (by omega)
      rw [if_neg (fun hc => hnp ((anc_realized_iff p (k + 1)).mp
        ((nodeWidth_lt _ _).mp hc)))]
      rw [parentStep_anc]
      exact ih (k + 1) j (by omega) h2 (fun i hi1 hi2 => h3 i (by omega) hi2)
        (by omega)

theorem parent_path (p k j : Nat) (h1 : k < j) (h2 : onPath p j)
    (h3 : ∀ i, k < i → i < j → ¬onPath p i) (hj : j ≤ binSize p) :
    parent (anc p k) (p + 1) = anc p j := by
  unfold parent
  rw [parentStep_anc]
  have hb := binSize_le_self p
  exact parentAux_path p _ k j h1 h2 h3 (by omega)

theorem leftChild_canon (k a : Nat) :
    leftChild (canonIdx (k + 1) a) = canonIdx k (2 * a) := by
  unfold leftChild
  rw [level_canon]
  simp only [Nat.add_sub_cancel]
  have h1 := canonIdx_add_one (k + 1) a
  have h2 := canonIdx_add_one k (2 * a)
  have e1 : (2 * a + 1) * 2 ^ (k + 1) = (2 * (2 * a) + 1) * 2 ^ k + 2 ^ k := by
    rw [pow_succ]
    ring
  have hp : 1 ≤ 2 ^ k := Nat.one_le_two_pow
  omega

theorem anc_le (p k j : Nat) (hkj : k < j) (hop : onPath p j) :
    anc p j < anc p k := by
  have hr : 2 ^ (j - 1) ≤ p % 2 ^ j := by
    rcases hop with h0 | h
    · omega
    · exact h
  unfold anc
  have hp1 : 2 ^ (j - k) * 2 ^ k = 2 ^ j := by
    rw [← pow_add]
    congr 1
    omega
  have hp2 : 2 ^ (j - 1 - k) * 2 ^ k = 2 ^ (j - 1) := by
    rw [← pow_add]
    congr 1
    omega
  have hq : 2 ^ j = 2 * 2 ^ (j - 1) := by
    conv_lhs => rw [show j = (j - 1) + 1 by omega]
    rw [pow_succ]
    ring
  have e0 := Nat.div_add_mod p (2 ^ j)
  have e2 : 2 ^ j * (p / 2 ^ j) + p % 2 ^ j =
      p % 2 ^ j + 2 ^ (j - k) * (p / 2 ^ j) * 2 ^ k := by
    rw [mul_assoc, mul_comm (p / 2 ^ j) (2 ^ k), ← mul_assoc, hp1]
    ring
  have hAk : p / 2 ^ k = (p % 2 ^ j) / 2 ^ k + 2 ^ (j - k) * (p / 2 ^ j) := by
    conv_lhs => rw [← e0]
    rw [e2, Nat.add_mul_div_right _ _ (Nat.pos_of_ne_zero (by positivity))]
  have hrk : 2 ^ (j - 1 - k) ≤ (p % 2 ^ j) / 2 ^ k := by
    have hdd : 2 ^ (j - 1) / 2 ^ k ≤ (p % 2 ^ j) / 2 ^ k := Nat.div_le_div_right hr
    rwa [Nat.pow_div (by omega) (by omega)] at hdd
  have hfin1 := canonIdx_add_one k (p / 2 ^ k)
  have hfin2 := canonIdx_add_one j (p / 2 ^ j)
  have hmul : (2 * ((p % 2 ^ j) / 2 ^ k + 2 ^ (j - k) * (p / 2 ^ j)) + 1) * 2 ^ k ≤
      (2 * (p / 2 ^ k) + 1) * 2 ^ k :=
    Nat.mul_le_mul_right _ (by omega)
  have expand : (2 * ((p % 2 ^ j) / 2 ^ k + 2 ^ (j - k) * (p / 2 ^ j)) + 1) * 2 ^ k =
      2 * ((p % 2 ^ j) / 2 ^ k * 2 ^ k) + 2 * (p / 2 ^ j * 2 ^ j) + 2 ^ k := by
    rw [← hp1]
    ring
  rw [expand] at hmul
  have hbound : 2 ^ (j - 1 - k) * 2 ^ k ≤ (p % 2 ^ j) / 2 ^ k * 2 ^ k :=
    Nat.mul_le_mul_right _ hrk
  rw [hp2] at hbound
  have expand2 : (2 * (p / 2 ^ j) + 1) * 2 ^ j = 2 * (p / 2 ^ j * 2 ^ j) + 2 ^ j := by
    ring
  have hp0 : 1 ≤ 2 ^ k := Nat.one_le_two_pow
  omega

theorem sibling_path (p k j : Nat) (h1 : k < j) (h2 : onPath p j)
    (h3 : ∀ i, k < i → i < j → ¬onPath p i) (hj : j ≤ binSize p) :
    isLeft (anc p k) (p + 1) = false ∧
    sibling (anc p k) (p + 1) = canonIdx (j - 1) (2 * (p / 2 ^ j)) := by
  have hpar := parent_path p k j h1 h2 h3 hj
  have hlt := anc_le p k j h1 h2
  have hleft : isLeft (anc p k) (p + 1) = false := by
    unfold isLeft
    rw [hpar]
    simp only [decide_eq_false_iff_not]
    omega
  refine ⟨hleft, ?_⟩
  unfold sibling
  rw [hleft]
  simp only [Bool.false_eq_true, if_false]
  rw [hpar]
  have hone : anc p j = canonIdx ((j - 1) + 1) (p / 2 ^ j) := by
    unfold anc
    congr 1
    omega
  rw [hone, leftChild_canon]

theorem mod_pow_bit (p i : Nat) :
    p % 2 ^ (i + 1) = p % 2 ^ i + 2 ^ i * (p / 2 ^ i % 2) := by
  rw [pow_succ]
  exact Nat.mod_mul

theorem mod_eq_of_gap (p k : Nat) : ∀ j2, k ≤ j2 →
    (∀ i, k < i → i ≤ j2 → ¬onPath p i) → p % 2 ^ j2 = p % 2 ^ k := by
  intro j2
  induction j2 with
  | zero =>
    intro h _
    have hk : k = 0 := by omega
    subst hk
    rfl
  | succ m ih =>
    intro hk hgap
    by_cases hkm : k = m + 1
    · subst hkm
      rfl
    · have hkm2 : k ≤ m := by omega
      have hnp : ¬onPath p (m + 1) := hgap (m + 1) (by omega) (by omega)
      have hmod := mod_pow_bit p m
      have hlt : p % 2 ^ (m + 1) < 2 ^ m := by
        unfold onPath at hnp
        push_neg at hnp
        have := hnp.2
        simpa using this
      have hmm : p % 2 ^ m < 2 ^ m := Nat.mod_lt p (by positivity)
      have hbit : p / 2 ^ m % 2 = 0 := by
        rcases Nat.mod_two_eq_zero_or_one (p / 2 ^ m) with h | h
        · exact h
        · rw [h] at hmod
          omega
      rw [hmod, hbit]
      simp only [mul_zero, add_zero]
      exact ih hkm2 (fun i hi1 hi2 => hgap i hi1 (by omega))

theorem glue_mid (p k j : Nat) (h1 : k < j) (h2 : onPath p j)
    (h3 : ∀ i, k < i → i < j → ¬onPath p i) :
    p / 2 ^ k * 2 ^ k = p / 2 ^ j * 2 ^ j + 2 ^ (j - 1) := by
  have hgap : p % 2 ^ (j - 1) = p % 2 ^ k :=
    mod_eq_of_gap p k (j - 1) (by omega) (fun i hi1 hi2 => h3 i hi1 (by omega))
  have hbitj := mod_pow_bit p (j - 1)
  rw [show j - 1 + 1 = j by omega] at hbitj
  have hr : 2 ^ (j - 1) ≤ p % 2 ^ j := by
    rcases h2 with h0 | h
    · omega
    · exact h
  have hmlt : p % 2 ^ (j - 1) < 2 ^ (j - 1) := Nat.mod_lt p (by positivity)
  have hbit : p / 2 ^ (j - 1) % 2 = 1 := by
    rcases Nat.mod_two_eq_zero_or_one (p / 2 ^ (j - 1)) with h | h
    · rw [h] at hbitj
      omega
    · exact h
  rw [hbit] at hbitj
  have d1 := Nat.div_add_mod p (2 ^ k)
  have d2 := Nat.div_add_mod p (2 ^ j)
  have e1 : p / 2 ^ k * 2 ^ k = 2 ^ k * (p / 2 ^ k) := mul_comm _ _
  have e2 : p / 2 ^ j * 2 ^ j = 2 ^ j * (p / 2 ^ j) := mul_comm _ _
  omega

theorem canon_lt_of_range (k a q : Nat) (h : (a + 1) * 2 ^ k ≤ q) :
    canonIdx k a + 1 < 2 * q := by
  have h1 := canonIdx_add_one k a
  have hp : 1 ≤ 2 ^ k := Nat.one_le_two_pow
  have e : (2 * a + 1) * 2 ^ k + 2 ^ k = 2 * ((a + 1) * 2 ^ k) := by ring
  omega

theorem canon_lo_lt (k a q : Nat) (h : canonIdx k a + 1 < 2 * q) :
    a * 2 ^ k < q := by
  have h1 := canonIdx_add_one k a
  have hp : 1 ≤ 2 ^ k := Nat.one_le_two_pow
  have e : (2 * a + 1) * 2 ^ k = 2 * (a * 2 ^ k) + 2 ^ k := by ring
  omega

theorem canon_realized_mono (k a q1 q2 : Nat) (h : canonIdx k a + 1 < 2 * q1)
    (hq : q1 ≤ q2) : canonIdx k a + 1 < 2 * q2 := by omega

/-- A node realized at size `p + 1` whose range does not contain leaf `p`
is realized at size `p`, and its range lies in `[0, p)`. -/
theorem canon_realized_shrink (k a p : Nat) (h : canonIdx k a + 1 < 2 * (p + 1))
    (hout : ¬(a * 2 ^ k ≤ p ∧ p < (a + 1) * 2 ^ k)) :
    (a + 1) * 2 ^ k ≤ p ∧ canonIdx k a + 1 < 2 * p := by
  have hlo : a * 2 ^ k ≤ p := by
    have := canon_lo_lt k a (p + 1) h
    omega
  have hp : 1 ≤ 2 ^ k := Nat.one_le_two_pow
  have hhi : (a + 1) * 2 ^ k ≤ p := by
    by_contra hc
    exact hout ⟨hlo, by omega⟩
  exact ⟨hhi, canon_lt_of_range k a p hhi⟩

/-!
## Reference-hash lemmas
-/

theorem mthF_congr (Hs : Bytes → Bytes) : ∀ fuel (l : List Bytes),
    l.length ≤ fuel → mthF Hs fuel l = mthF Hs l.length l := by
  intro fuel
  induction fuel using Nat.strong_induction_on with
  | _ fuel ih =>
    intro l hl
    match fuel, l with
    | 0, [] => rfl
    | _ + 1, [] => rfl
    | _ + 1, [x] => rfl
    | fuel + 1, a :: b :: rest =>
      have hkle : 2 ^ (binSize (rest.length + 1) - 1) ≤ rest.length + 1 :=
        two_pow_binSize_pred_le (rest.length + 1) (by omega)
      have hk1 : (1 : Nat) ≤ 2 ^ (binSize (rest.length + 1) - 1) :=
        Nat.one_le_two_pow
      have hfl : rest.length + 1 ≤ fuel := by
        simp only [List.length_cons] at hl
        omega
      simp only [mthF, List.length_cons, Nat.add_sub_cancel]
      rw [ih fuel (by omega) _
          (by simp only [List.length_take, List.length_cons]; omega),
        ih fuel (by omega) _
          (by simp only [List.length_drop, List.length_cons]; omega),
        ih (rest.length + 1) (by omega) _
          (by simp only [List.length_take, List.length_cons]; omega),
        ih (rest.length + 1) (by omega) _
          (by simp only [List.length_drop, List.length_cons]; omega)]

theorem mth_split (Hs : Bytes → Bytes) (l : List Bytes) (j : Nat) (hj : 1 ≤ j)
    (h1 : 2 ^ (j - 1) < l.length) (h2 : l.length ≤ 2 ^ j) :
    mth Hs l = parentHashB Hs (mth Hs (l.take (2 ^ (j - 1))))
      (mth Hs (l.drop (2 ^ (j - 1)))) := by
  have hk1 : (1 : Nat) ≤ 2 ^ (j - 1) := Nat.one_le_two_pow
  obtain ⟨a, b, rest, rfl⟩ : ∃ a b rest, l = a :: b :: rest := by
    match l, h1 with
    | a :: b :: rest, _ => exact ⟨a, b, rest, rfl⟩
    | [x], h1 => simp only [List.length_singleton] at h1; omega
    | [], h1 => simp only [List.length_nil] at h1; omega
  have hbs : binSize ((a :: b :: rest).length - 1) = j := by
    apply binSize_unique _ j hj (by simp at h1 ⊢; omega) (by simp at h2 ⊢; omega)
  show mthF Hs (rest.length + 2) (a :: b :: rest) = _
  simp only [mthF, hbs]
  have hkle : 2 ^ (j - 1) ≤ rest.length + 1 := by
    simp only [List.length_cons] at h1
    omega
  have hbs2 : binSize ((a :: b :: rest).length - 1) = j := hbs
  rw [mthF_congr Hs (rest.length + 1) _ (by simp only [List.length_take]; omega),
    mthF_congr Hs (rest.length + 1) _
      (by simp only [List.length_drop, List.length_cons]; omega)]
  rfl

theorem mthF_length (Hs : Bytes → Bytes) (hashLen : Nat)
    (hH : ∀ b, (Hs b).length = hashLen) :
    ∀ fuel (l : List Bytes), (mthF Hs fuel l).length = hashLen := by
  intro fuel l
  match fuel, l with
  | 0, _ => exact hH []
  | _ + 1, [] => exact hH []
  | _ + 1, [x] => exact hH (0 :: x)
  | fuel + 1, a :: b :: rest => exact hH _

theorem mth_length (Hs : Bytes → Bytes) (hashLen : Nat)
    (hH : ∀ b, (Hs b).length = hashLen) (l : List Bytes) :
    (mth Hs l).length = hashLen :=
  mthF_length Hs hashLen hH l.length l

theorem slice_stable (L M : List Bytes) (a b : Nat) (hb : b ≤ L.length) :
    slice (L ++ M) a b = slice L a b := by
  unfold slice
  by_cases ha : a ≤ L.length
  · rw [List.drop_append_of_le_length ha,
      List.take_append_of_le_length (by simp only [List.length_drop]; omega)]
  · have hz : b - a = 0 := by omega
    rw [hz]
    simp

theorem slice_take (L : List Bytes) (a m b : Nat) (h1 : a ≤ m) (h2 : m ≤ b) :
    (slice L a b).take (m - a) = slice L a m := by
  unfold slice
  rw [List.take_take]
  congr 1
  omega

theorem slice_drop (L : List Bytes) (a m b : Nat) (h1 : a ≤ m) :
    (slice L a b).drop (m - a) = slice L m b := by
  unfold slice
  rw [List.drop_take, List.drop_drop,
    show a + (m - a) = m by omega, show b - a - (m - a) = b - m by omega]

theorem slice_length (L : List Bytes) (a b : Nat) (hb : b ≤ L.length) :
    (slice L a b).length = b - a := by
  unfold slice
  simp only [List.length_take, List.length_drop]
  omega

theorem slice_singleton (L : List Bytes) (i : Nat) (h : i < L.length) :
    slice L i (i + 1) = [L[i]] := by
  unfold slice
  rw [show i + 1 - i = 1 by omega, List.drop_eq_getElem_cons h]
  rfl

theorem slice_full (L : List Bytes) : slice L 0 L.length = L := by
  unfold slice
  simp

theorem nodeVal_leaf (Hs : Bytes → Bytes) (L : List Bytes) (a : Nat)
    (h : a < L.length) : nodeVal Hs L 0 a = leafHashB Hs L[a] := by
  unfold nodeVal
  have e1 : a * 2 ^ 0 = a := by simp
  have e2 : min ((a + 1) * 2 ^ 0) L.length = a + 1 := by simp; omega
  rw [e1, e2, slice_singleton L a h]
  rfl

theorem nodeVal_stable (Hs : Bytes → Bytes) (L M : List Bytes) (k a : Nat)
    (h : (a + 1) * 2 ^ k ≤ L.length) :
    nodeVal Hs (L ++ M) k a = nodeVal Hs L k a := by
  unfold nodeVal
  have hp : 1 ≤ 2 ^ k := Nat.one_le_two_pow
  have hlo : a * 2 ^ k ≤ (a + 1) * 2 ^ k := by
    have : a * 2 ^ k + 2 ^ k = (a + 1) * 2 ^ k := by ring
    omega
  have e1 : min ((a + 1) * 2 ^ k) (L ++ M).length = (a + 1) * 2 ^ k := by
    simp only [List.length_append]
    omega
  have e2 : min ((a + 1) * 2 ^ k) L.length = (a + 1) * 2 ^ k := by omega
  rw [e1, e2, slice_stable L M _ _ h]

theorem nodeVal_root (Hs : Bytes → Bytes) (L : List Bytes) (p : Nat)
    (hL : L.length = p + 1) : nodeVal Hs L (binSize p) 0 = mth Hs L := by
  unfold nodeVal
  have h1 : p + 1 ≤ 2 ^ binSize p := lt_two_pow_binSize p
  have e1 : (0 : Nat) * 2 ^ binSize p = 0 := by simp
  have e2 : min ((0 + 1) * 2 ^ binSize p) L.length = L.length := by
    simp only [one_mul, hL]
    omega
  rw [e1, e2, slice_full]

/-- The key split: the hash of the rightmost-path node at level `j` is the
interior hash of its full left child (the sibling pushed during the climb)
and its rightmost-path child at level `k`. -/
theorem nodeVal_split (Hs : Bytes → Bytes) (L2 : List Bytes) (p k j : Nat)
    (hL : L2.length = p + 1) (h1 : k < j) (h2 : onPath p j)
    (h3 : ∀ i, k < i → i < j → ¬onPath p i) :
    nodeVal Hs L2 j (p / 2 ^ j) =
      parentHashB Hs (nodeVal Hs L2 (j - 1) (2 * (p / 2 ^ j)))
        (nodeVal Hs L2 k (p / 2 ^ k)) := by
  have hj1 : 1 ≤ j := by omega
  have hglue : p / 2 ^ k * 2 ^ k = p / 2 ^ j * 2 ^ j + 2 ^ (j - 1) :=
    glue_mid p k j h1 h2 h3
  have hr : 2 ^ (j - 1) ≤ p % 2 ^ j := by
    rcases h2 with h0 | h
    · omega
    · exact h
  have hdj := Nat.div_add_mod p (2 ^ j)
  have hdk := Nat.div_add_mod p (2 ^ k)
  have hmj : p % 2 ^ j < 2 ^ j := Nat.mod_lt p (by positivity)
  have hmk : p % 2 ^ k < 2 ^ k := Nat.mod_lt p (by positivity)
  have hpj : 1 ≤ 2 ^ j := Nat.one_le_two_pow
  have hpk : 1 ≤ 2 ^ k := Nat.one_le_two_pow
  have hqj : 2 ^ j = 2 * 2 ^ (j - 1) := by
    conv_lhs => rw [show j = (j - 1) + 1 by omega]
    rw [pow_succ]
    ring
  have ced : 2 ^ j * (p / 2 ^ j) = p / 2 ^ j * 2 ^ j := mul_comm _ _
  have cek : 2 ^ k * (p / 2 ^ k) = p / 2 ^ k * 2 ^ k := mul_comm _ _
  have ehj : (p / 2 ^ j + 1) * 2 ^ j = p / 2 ^ j * 2 ^ j + 2 ^ j := by ring
  have ehk : (p / 2 ^ k + 1) * 2 ^ k = p / 2 ^ k * 2 ^ k + 2 ^ k := by ring
  have ehs : (2 * (p / 2 ^ j) + 1) * 2 ^ (j - 1) =
      p / 2 ^ j * 2 ^ j + 2 ^ (j - 1) := by
    rw [hqj]
    ring
  have ehs0 : 2 * (p / 2 ^ j) * 2 ^ (j - 1) = p / 2 ^ j * 2 ^ j := by
    rw [hqj]
    ring
  unfold nodeVal
  have hminj : min ((p / 2 ^ j + 1) * 2 ^ j) L2.length = p + 1 := by
    rw [hL]
    omega
  have hmink : min ((p / 2 ^ k + 1) * 2 ^ k) L2.length = p + 1 := by
    rw [hL]
    omega
  have hmins : min ((2 * (p / 2 ^ j) + 1) * 2 ^ (j - 1)) L2.length =
      p / 2 ^ j * 2 ^ j + 2 ^ (j - 1) := by
    rw [hL, ehs]
    omega
  rw [hminj, hmink, hmins, ehs0]
  have hslen : (slice L2 (p / 2 ^ j * 2 ^ j) (p + 1)).length =
      p + 1 - p / 2 ^ j * 2 ^ j := slice_length L2 _ _ (by omega)
  rw [mth_split Hs _ j hj1 (by omega) (by omega)]
  have etake : (slice L2 (p / 2 ^ j * 2 ^ j) (p + 1)).take (2 ^ (j - 1)) =
      slice L2 (p / 2 ^ j * 2 ^ j) (p / 2 ^ j * 2 ^ j + 2 ^ (j - 1)) := by
    have h := slice_take L2 (p / 2 ^ j * 2 ^ j) (p / 2 ^ j * 2 ^ j + 2 ^ (j - 1))
      (p + 1) (by omega) (by omega)
    rwa [show p / 2 ^ j * 2 ^ j + 2 ^ (j - 1) - p / 2 ^ j * 2 ^ j =
      2 ^ (j - 1) by omega] at h
  have edrop : (slice L2 (p / 2 ^ j * 2 ^ j) (p + 1)).drop (2 ^ (j - 1)) =
      slice L2 (p / 2 ^ k * 2 ^ k) (p + 1) := by
    have h := slice_drop L2 (p / 2 ^ j * 2 ^ j) (p / 2 ^ j * 2 ^ j + 2 ^ (j - 1))
      (p + 1) (by omega)
    rw [show p / 2 ^ j * 2 ^ j + 2 ^ (j - 1) - p / 2 ^ j * 2 ^ j =
      2 ^ (j - 1) by omega] at h
    rw [h, ← hglue]
  rw [etake, edrop]

/-!
## Batch-invariant helper lemmas
-/

theorem versionedNodeKey_inj_idx (a v b w : Nat) (ha : a < 2 ^ 64)
    (hb : b < 2 ^ 64) (h : versionedNodeKey a v = versionedNodeKey b w) :
    a = b := by
  have h2 := congrArg (fun l => be64dec ((l.drop 6).take 8)) h
  simp only at h2
  have e1 : ((versionedNodeKey a v).drop 6).take 8 = be64 a := rfl
  have e2 : ((versionedNodeKey b w).drop 6).take 8 = be64 b := rfl
  rw [e1, e2, be64dec_be64 a ha, be64dec_be64 b hb] at h2
  exact h2

theorem nodeVal_length (Hs : Bytes → Bytes) (hashLen : Nat)
    (hH : ∀ b, (Hs b).length = hashLen) (L : List Bytes) (k a : Nat) :
    (nodeVal Hs L k a).length = hashLen := mth_length Hs hashLen hH _

/-- The prefetched map built by `batch_push_with_data` only reports
genuine store values of the hash width. -/
theorem prefetchMap_ok (hashLen : Nat) (t : Tree) (sIdx k : Nat) :
    PrefOk hashLen t (prefetchMap hashLen t sIdx k) := by
  intro x
  unfold prefetchMap
  by_cases hm : x ∈ prefetchIdxs sIdx k
  · rw [if_pos hm]
    rcases hs : t.store (nodeKey x) with _ | b
    · exact Or.inl rfl
    · by_cases hl : b.length = hashLen
      · exact Or.inr ⟨b, rfl, hl, by simp [hl]⟩
      · exact Or.inl (by simp [hl])
  · rw [if_neg hm]
    exact Or.inl rfl

/-- At a realized path level `j ≥ 1` of leaf `p`, the quotient one level
below the `j`-ancestor is odd: the previous climb position is a right
child, and the sibling `2·(p/2^j)` is never on the path. -/
theorem div_pred_of_onPath (p j : Nat) (hj : 1 ≤ j) (hop : onPath p j) :
    p / 2 ^ (j - 1) = 2 * (p / 2 ^ j) + 1 := by
  have hbitj := mod_pow_bit p (j - 1)
  rw [show j - 1 + 1 = j by omega] at hbitj
  have hr : 2 ^ (j - 1) ≤ p % 2 ^ j := by
    rcases hop with h0 | h
    · omega
    · exact h
  have hmlt : p % 2 ^ (j - 1) < 2 ^ (j - 1) := Nat.mod_lt p (by positivity)
  have hbit : p / 2 ^ (j - 1) % 2 = 1 := by
    rcases Nat.mod_two_eq_zero_or_one (p / 2 ^ (j - 1)) with h | h
    · rw [h] at hbitj
      omega
    · exact h
  have hdd : p / 2 ^ (j - 1) / 2 = p / 2 ^ j := by
    rw [Nat.div_div_eq_div_mul, ← pow_succ, show j - 1 + 1 = j by omega]
  have := Nat.div_add_mod (p / 2 ^ (j - 1)) 2
  omega

/-- Realized path ancestors stay within the node range `2p`. -/
theorem anc_le_double (p i : Nat) (h : onPath p i) : anc p i ≤ 2 * p := by
  have := (anc_realized_iff p i).mpr h
  omega

/-- Recording the freshly computed hash of the next path node preserves
the `computed_hashes` characterization, advancing the climb level. -/
theorem compAt_update (Hs : Bytes → Bytes) (S : Nat) (L M : List Bytes)
    (p kc j : Nat) (computed : Nat → Option Bytes)
    (hc : CompAt Hs S L M p kc computed) (hkj : kc < j) (hop : onPath p j)
    (hgap : ∀ i, kc < i → i < j → ¬onPath p i) :
    CompAt Hs S L M p j (fun i =>
      if i = anc p j then some (nodeVal Hs M j (p / 2 ^ j)) else computed i) := by
  intro k a
  by_cases he : canonIdx k a = anc p j
  · obtain ⟨hk, ha⟩ := canon_inj k a j (p / 2 ^ j) he
    subst hk
    subst ha
    simp only [he, if_pos rfl]
    simp [hop]
  · simp only [if_neg he]
    rw [hc k a]
    by_cases hb : a = p / 2 ^ k ∧ k ≤ kc ∧ onPath p k
    · rw [if_pos hb, if_pos ⟨hb.1, by omega, hb.2.2⟩]
    · have hb2 : ¬(a = p / 2 ^ k ∧ k ≤ j ∧ onPath p k) := by
        rintro ⟨h1, h2, h3⟩
        by_cases hkc : k ≤ kc
        · exact hb ⟨h1, hkc, h3⟩
        · by_cases hkj2 : k < j
          · exact hgap k (by omega) hkj2 h3
          · have hkeq : k = j := by omega
            subst hkeq
            exact he (by rw [h1]; rfl)
      rw [if_neg hb, if_neg hb2]

/-- Recording the new leaf hash turns the between-items characterization
into the start-of-climb characterization at level 0. -/
theorem compBetween_compAt_zero (Hs : Bytes → Bytes) (S : Nat) (L : List Bytes)
    (v : Bytes) (computed : Nat → Option Bytes)
    (hc : CompBetween Hs S L computed) :
    CompAt Hs S L (L ++ [v]) L.length 0 (fun i =>
      if i = 2 * L.length then some (nodeVal Hs (L ++ [v]) 0 L.length)
      else computed i) := by
  intro k a
  by_cases he : canonIdx k a = 2 * L.length
  · have he2 : canonIdx k a = canonIdx 0 L.length := by
      rw [canonIdx_zero]
      exact he
    obtain ⟨hk, ha⟩ := canon_inj k a 0 L.length he2
    subst hk
    subst ha
    simp only [he, if_pos rfl]
    simp [onPath]
  · simp only [if_neg he]
    rw [hc k a]
    have hb1 : ¬(a = L.length / 2 ^ k ∧ k ≤ 0 ∧ onPath L.length k) := by
      rintro ⟨h1, h2, _⟩
      have hk0 : k = 0 := by omega
      subst hk0
      simp only [pow_zero, Nat.div_one] at h1
      exact he (by rw [h1, canonIdx_zero])
    rw [if_neg hb1]

/-- Once the climb reaches the top level, the `computed_hashes`
characterization for the extended leaf list holds. -/
theorem compAt_between (Hs : Bytes → Bytes) (S : Nat) (L : List Bytes)
    (v : Bytes) (computed : Nat → Option Bytes) (hS : S ≤ L.length)
    (hc : CompAt Hs S L (L ++ [v]) L.length (binSize L.length) computed) :
    CompBetween Hs S (L ++ [v]) computed := by
  intro k a
  rw [hc k a]
  have hM : (L ++ [v]).length = L.length + 1 := by simp
  have hp1 : 1 ≤ 2 ^ k := Nat.one_le_two_pow
  by_cases h1 : a = L.length / 2 ^ k ∧ k ≤ binSize L.length ∧ onPath L.length k
  · rw [if_pos h1]
    have hreal : canonIdx k a + 1 < 2 * (L ++ [v]).length := by
      rw [hM]
      have h := (anc_realized_iff L.length k).mpr h1.2.2
      unfold anc at h
      rw [h1.1]
      exact h
    have hrange : S < (a + 1) * 2 ^ k := by
      have hdm := Nat.div_add_mod L.length (2 ^ k)
      have hm := Nat.mod_lt L.length (show 0 < 2 ^ k by positivity)
      have e : (L.length / 2 ^ k + 1) * 2 ^ k =
          2 ^ k * (L.length / 2 ^ k) + 2 ^ k := by ring
      rw [h1.1]
      omega
    have hSM : S < (L ++ [v]).length := by
      rw [hM]
      omega
    rw [if_pos ⟨hreal, hrange, hSM⟩, h1.1]
  · rw [if_neg h1]
    by_cases h2 : canonIdx k a + 1 < 2 * L.length ∧ S < (a + 1) * 2 ^ k ∧
        S < L.length
    · rw [if_pos h2]
      have hshr : (a + 1) * 2 ^ k ≤ L.length ∧ canonIdx k a + 1 < 2 * L.length := by
        refine canon_realized_shrink k a L.length (by omega) ?_
        rintro ⟨hlo, hhi⟩
        have ha' : a = L.length / 2 ^ k := (Nat.div_eq_of_lt_le hlo hhi).symm
        have honp : onPath L.length k := (anc_realized_iff L.length k).mp (by
          unfold anc
          rw [← ha']
          omega)
        have hkb : k ≤ binSize L.length := by
          by_contra hcon
          exact not_onPath_gt L.length k (by omega) honp
        exact h1 ⟨ha', hkb, honp⟩
      have hcond : canonIdx k a + 1 < 2 * (L ++ [v]).length ∧
          S < (a + 1) * 2 ^ k ∧ S < (L ++ [v]).length := by
        rw [hM]
        exact ⟨by omega, h2.2.1, by omega⟩
      rw [if_pos hcond, nodeVal_stable Hs L [v] k a hshr.1]
    · rw [if_neg h2]
      have hcond : ¬(canonIdx k a + 1 < 2 * (L ++ [v]).length ∧
          S < (a + 1) * 2 ^ k ∧ S < (L ++ [v]).length) := by
        rw [hM]
        rintro ⟨hreal, hrange, hSM⟩
        by_cases hcontain : a * 2 ^ k ≤ L.length ∧ L.length < (a + 1) * 2 ^ k
        · have ha' : a = L.length / 2 ^ k :=
            (Nat.div_eq_of_lt_le hcontain.1 hcontain.2).symm
          have honp : onPath L.length k := (anc_realized_iff L.length k).mp (by
            unfold anc
            rw [← ha']
            omega)
          have hkb : k ≤ binSize L.length := by
            by_contra hcon
            exact not_onPath_gt L.length k (by omega) honp
          exact h1 ⟨ha', hkb, honp⟩
        · have hshr := canon_realized_shrink k a L.length hreal hcontain
          exact h2 ⟨hshr.2, hrange, by omega⟩
      rw [if_neg hcond]

/-- The sibling lookup of the batch climb returns the reference hash of
the sibling (the full left child of the next realized path node): from
`computed_hashes` when the batch already recomputed it, otherwise from
the prefetch map or the store, both backed by the well-formed pre-call
store. -/
theorem lookupSib_spec (Hs : Bytes → Bytes) (hashLen : Nat)
    (hH : ∀ b, (Hs b).length = hashLen) (t : Tree)
    (prefetched computed : Nat → Option Bytes) (L0 E : List Bytes) (v : Bytes)
    (hg : GoodStore Hs L0 t.store) (hpref : PrefOk hashLen t prefetched)
    (kc j : Nat)
    (hcomp : CompAt Hs L0.length (L0 ++ E) (L0 ++ E ++ [v]) (L0 ++ E).length kc
      computed)
    (hkj : kc < j) (hop : onPath (L0 ++ E).length j)
    (hgap : ∀ i, kc < i → i < j → ¬onPath (L0 ++ E).length i) :
    lookupSib hashLen t prefetched computed (L0 ++ E).length
        (canonIdx (j - 1) (2 * ((L0 ++ E).length / 2 ^ j))) =
      .ok (nodeVal Hs (L0 ++ E ++ [v]) (j - 1)
        (2 * ((L0 ++ E).length / 2 ^ j))) := by
  have hj1 : 1 ≤ j := by omega
  have hSp : L0.length ≤ (L0 ++ E).length := by simp
  have hq : 2 ^ j = 2 * 2 ^ (j - 1) := by
    conv_lhs => rw [show j = (j - 1) + 1 by omega]
    rw [pow_succ]
    ring
  have hglue := glue_mid (L0 ++ E).length kc j hkj hop hgap
  have hdmul : (L0 ++ E).length / 2 ^ kc * 2 ^ kc ≤ (L0 ++ E).length :=
    Nat.div_mul_le_self _ _
  have ehi : (2 * ((L0 ++ E).length / 2 ^ j) + 1) * 2 ^ (j - 1) =
      (L0 ++ E).length / 2 ^ j * 2 ^ j + 2 ^ (j - 1) := by
    rw [hq]
    ring
  have hhi : (2 * ((L0 ++ E).length / 2 ^ j) + 1) * 2 ^ (j - 1) ≤
      (L0 ++ E).length := by omega
  have hnotpath : 2 * ((L0 ++ E).length / 2 ^ j) ≠
      (L0 ++ E).length / 2 ^ (j - 1) := by
    have := div_pred_of_onPath (L0 ++ E).length j hj1 hop
    omega
  have hcX := hcomp (j - 1) (2 * ((L0 ++ E).length / 2 ^ j))
  rw [if_neg (by rintro ⟨h1, -, -⟩; exact hnotpath h1)] at hcX
  have hstable : nodeVal Hs (L0 ++ E ++ [v]) (j - 1)
      (2 * ((L0 ++ E).length / 2 ^ j)) =
      nodeVal Hs (L0 ++ E) (j - 1) (2 * ((L0 ++ E).length / 2 ^ j)) :=
    nodeVal_stable Hs (L0 ++ E) [v] _ _ hhi
  by_cases hcase : L0.length < (2 * ((L0 ++ E).length / 2 ^ j) + 1) * 2 ^ (j - 1)
  · have hSL : L0.length < (L0 ++ E).length := by omega
    have hreal : canonIdx (j - 1) (2 * ((L0 ++ E).length / 2 ^ j)) + 1 <
        2 * (L0 ++ E).length := canon_lt_of_range _ _ _ hhi
    rw [if_pos ⟨hreal, hcase, hSL⟩] at hcX
    simp only [lookupSib, hcX, hstable]
  · rw [if_neg (by rintro ⟨-, h2, -⟩; exact hcase h2)] at hcX
    have hhiS : (2 * ((L0 ++ E).length / 2 ^ j) + 1) * 2 ^ (j - 1) ≤
        L0.length := by omega
    have hrealL0 : canonIdx (j - 1) (2 * ((L0 ++ E).length / 2 ^ j)) + 1 <
        2 * L0.length := canon_lt_of_range _ _ _ hhiS
    have hstore := hg.node (j - 1) (2 * ((L0 ++ E).length / 2 ^ j)) hrealL0
    have hstable0 : nodeVal Hs L0 (j - 1) (2 * ((L0 ++ E).length / 2 ^ j)) =
        nodeVal Hs (L0 ++ E ++ [v]) (j - 1)
          (2 * ((L0 ++ E).length / 2 ^ j)) := by
      rw [List.append_assoc]
      exact (nodeVal_stable Hs L0 (E ++ [v]) _ _ hhiS).symm
    have hgx : ¬((L0 ++ E).length * 2 ≤
        canonIdx (j - 1) (2 * ((L0 ++ E).length / 2 ^ j))) := by
      have h1 := canonIdx_add_one (j - 1) (2 * ((L0 ++ E).length / 2 ^ j))
      have hc4 : (2 * (2 * ((L0 ++ E).length / 2 ^ j)) + 1) * 2 ^ (j - 1) <
          (2 * (2 * ((L0 ++ E).length / 2 ^ j)) + 2) * 2 ^ (j - 1) :=
        Nat.mul_lt_mul_of_lt_of_le (by omega) (le_refl _) (by positivity)
      have hc5 : (2 * (2 * ((L0 ++ E).length / 2 ^ j)) + 2) * 2 ^ (j - 1) =
          2 * ((2 * ((L0 ++ E).length / 2 ^ j) + 1) * 2 ^ (j - 1)) := by ring
      omega
    rcases hpref (canonIdx (j - 1) (2 * ((L0 ++ E).length / 2 ^ j))) with hnone |
      ⟨b, hb, hbl, hbs⟩
    · have hlen2 : (nodeVal Hs L0 (j - 1)
          (2 * ((L0 ++ E).length / 2 ^ j))).length = hashLen :=
        nodeVal_length Hs hashLen hH L0 _ _
      simp only [lookupSib, hcX, if_neg hgx, hnone, hstore, if_pos hlen2]
      exact congrArg Except.ok hstable0
    · rw [hstore] at hb
      have hbv : b = nodeVal Hs L0 (j - 1) (2 * ((L0 ++ E).length / 2 ^ j)) :=
        (Option.some.inj hb).symm
      subst hbv
      simp only [lookupSib, hcX, if_neg hgx, hbs]
      exact congrArg Except.ok hstable0

theorem commit_pair (s : Store) (k1 v1 k2 v2 : Bytes) :
    commit s [(k1, v1), (k2, v2)] = Store.put (Store.put s k1 v1) k2 v2 := rfl

/-- The climb loop of `batch_push_with_data`, started at a realized path
level `kc` of the new leaf `p` with the reference hash of that node:
it terminates at the root, leaves `computed_hashes` characterized at the
top level, stages exactly the current- and versioned-node writes of the
strictly higher path levels, and each staged write carries the reference
hash over the extended leaf list. -/
theorem climbB_spec (Hs : Bytes → Bytes) (hashLen : Nat)
    (hH : ∀ b, (Hs b).length = hashLen) (t : Tree)
    (prefetched : Nat → Option Bytes) (L0 E : List Bytes) (v : Bytes)
    (hg : GoodStore Hs L0 t.store) (hpref : PrefOk hashLen t prefetched)
    (hcap : (L0 ++ E).length < 2 ^ 63) :
    ∀ d kc fuel batch computed,
      binSize (L0 ++ E).length - kc = d →
      kc ≤ binSize (L0 ++ E).length →
      onPath (L0 ++ E).length kc →
      d + 1 ≤ fuel →
      CompAt Hs L0.length (L0 ++ E) (L0 ++ E ++ [v]) (L0 ++ E).length kc
        computed →
      ∃ batch2 computed2,
        climbB Hs hashLen t prefetched (L0 ++ E).length fuel
            (anc (L0 ++ E).length kc)
            (nodeVal Hs (L0 ++ E ++ [v]) kc ((L0 ++ E).length / 2 ^ kc))
            batch computed = .ok (batch2, computed2) ∧
        CompAt Hs L0.length (L0 ++ E) (L0 ++ E ++ [v]) (L0 ++ E).length
          (binSize (L0 ++ E).length) computed2 ∧
        (∀ s1 key,
          (∀ i, kc < i → i ≤ binSize (L0 ++ E).length →
            onPath (L0 ++ E).length i →
            key ≠ nodeKey (anc (L0 ++ E).length i) ∧
            key ≠ versionedNodeKey (anc (L0 ++ E).length i)
              ((L0 ++ E).length + 1)) →
          commit s1 batch2 key = commit s1 batch key) ∧
        (∀ s1 i, kc < i → i ≤ binSize (L0 ++ E).length →
          onPath (L0 ++ E).length i →
          commit s1 batch2 (nodeKey (anc (L0 ++ E).length i)) =
            some (nodeVal Hs (L0 ++ E ++ [v]) i ((L0 ++ E).length / 2 ^ i)) ∧
          commit s1 batch2 (versionedNodeKey (anc (L0 ++ E).length i)
              ((L0 ++ E).length + 1)) =
            some (nodeVal Hs (L0 ++ E ++ [v]) i ((L0 ++ E).length / 2 ^ i))) := by
  intro d
  induction d using Nat.strong_induction_on with
  | _ d ih =>
  intro kc fuel batch computed hd hkcle hkcop hfuel hcomp
  obtain ⟨fuel', rfl⟩ : ∃ f, fuel = f + 1 := ⟨fuel - 1, by omega⟩
  by_cases hend : kc = binSize (L0 ++ E).length
  · subst hend
    refine ⟨batch, computed, ?_, hcomp, fun s1 key h => rfl,
      fun s1 i h1 h2 h3 => absurd h2 (by omega)⟩
    simp only [climbB]
    rw [if_pos (rootIdx_eq_anc (L0 ++ E).length).symm]
  · have hlt : kc < binSize (L0 ++ E).length := by omega
    have hexd : ∃ jj, kc < jj ∧ onPath (L0 ++ E).length jj :=
      ⟨binSize (L0 ++ E).length, hlt, onPath_binSize _⟩
    obtain ⟨j, ⟨hkj, hopj⟩, hmin⟩ : ∃ j, (kc < j ∧ onPath (L0 ++ E).length j) ∧
        ∀ i, i < j → ¬(kc < i ∧ onPath (L0 ++ E).length i) :=
      ⟨Nat.find hexd, Nat.find_spec hexd, fun i h => Nat.find_min hexd h⟩
    have hgap : ∀ i, kc < i → i < j → ¬onPath (L0 ++ E).length i :=
      fun i h1 h2 hop => hmin i h2 ⟨h1, hop⟩
    have hjle : j ≤ binSize (L0 ++ E).length := by
      by_contra hcon
      exact hmin (binSize (L0 ++ E).length) (by omega)
        ⟨hlt, onPath_binSize _⟩
    have hpar : parent (anc (L0 ++ E).length kc) ((L0 ++ E).length + 1) =
        anc (L0 ++ E).length j := parent_path _ kc j hkj hopj hgap hjle
    have hsibp := sibling_path (L0 ++ E).length kc j hkj hopj hgap hjle
    have hroot_ne : anc (L0 ++ E).length kc ≠
        rootIdx ((L0 ++ E).length + 1) := by
      rw [rootIdx_eq_anc]
      have := anc_le (L0 ++ E).length kc (binSize (L0 ++ E).length) hlt
        (onPath_binSize _)
      omega
    have hlook := lookupSib_spec Hs hashLen hH t prefetched computed L0 E v hg
      hpref kc j hcomp hkj hopj hgap
    have hphX : parentHashB Hs (nodeVal Hs (L0 ++ E ++ [v]) (j - 1)
        (2 * ((L0 ++ E).length / 2 ^ j)))
        (nodeVal Hs (L0 ++ E ++ [v]) kc ((L0 ++ E).length / 2 ^ kc)) =
        nodeVal Hs (L0 ++ E ++ [v]) j ((L0 ++ E).length / 2 ^ j) :=
      (nodeVal_split Hs (L0 ++ E ++ [v]) (L0 ++ E).length kc j
        (by simp only [List.length_append, List.length_singleton])
        hkj hopj hgap).symm
    have hcomp2 := compAt_update Hs L0.length (L0 ++ E) (L0 ++ E ++ [v])
      (L0 ++ E).length kc j computed hcomp hkj hopj hgap
    obtain ⟨batch2, computed2, hrun, hctop, hframe, hnodes⟩ :=
      ih (binSize (L0 ++ E).length - j) (by omega) j fuel'
        (batch ++ [(nodeKey (anc (L0 ++ E).length j),
            nodeVal Hs (L0 ++ E ++ [v]) j ((L0 ++ E).length / 2 ^ j)),
          (versionedNodeKey (anc (L0 ++ E).length j) ((L0 ++ E).length + 1),
            nodeVal Hs (L0 ++ E ++ [v]) j ((L0 ++ E).length / 2 ^ j))])
        (fun i => if i = anc (L0 ++ E).length j then
            some (nodeVal Hs (L0 ++ E ++ [v]) j ((L0 ++ E).length / 2 ^ j))
          else computed i)
        rfl hjle hopj (by omega) hcomp2
    refine ⟨batch2, computed2, ?_, hctop, ?_, ?_⟩
    · simp only [climbB, hsibp.2, hsibp.1, hlook, hpar, hphX]
      rw [if_neg hroot_ne]
      simp only [Bool.false_eq_true, if_false]
      exact hrun
    · intro s1 key hkey
      have h1 := hframe s1 key (fun i hi1 hi2 hi3 => hkey i (by omega) hi2 hi3)
      rw [h1, commit_append, commit_pair,
        Store.put_other _ _ _ _ (hkey j hkj hjle hopj).2,
        Store.put_other _ _ _ _ (hkey j hkj hjle hopj).1]
    · intro s1 i hi1 hi2 hi3
      by_cases hij : j < i
      · exact hnodes s1 i hij hi2 hi3
      · have hieq : i = j := by
          by_contra hne
          exact hgap i hi1 (by omega) hi3
        subst hieq
        have hb1 : anc (L0 ++ E).length i < 2 ^ 64 := by
          have := anc_le_double (L0 ++ E).length i hi3
          omega
        constructor
        · have hkeys : ∀ i', i < i' → i' ≤ binSize (L0 ++ E).length →
              onPath (L0 ++ E).length i' →
              nodeKey (anc (L0 ++ E).length i) ≠
                nodeKey (anc (L0 ++ E).length i') ∧
              nodeKey (anc (L0 ++ E).length i) ≠
                versionedNodeKey (anc (L0 ++ E).length i')
                  ((L0 ++ E).length + 1) := by
            intro i' h1' h2' h3'
            refine ⟨?_, nodeKey_ne_versionedNodeKey _ _ _⟩
            intro hc
            have hanc := anc_le (L0 ++ E).length i i' h1' h3'
            have hb2 : anc (L0 ++ E).length i' < 2 ^ 64 := by
              have := anc_le_double (L0 ++ E).length i' h3'
              omega
            have := nodeKey_inj _ _ hb1 hb2 hc
            omega
          rw [hframe s1 _ hkeys, commit_append, commit_pair,
            Store.put_other _ _ _ _ (nodeKey_ne_versionedNodeKey _ _ _),
            Store.put_self]
        · have hkeys : ∀ i', i < i' → i' ≤ binSize (L0 ++ E).length →
              onPath (L0 ++ E).length i' →
              versionedNodeKey (anc (L0 ++ E).length i)
                  ((L0 ++ E).length + 1) ≠
                nodeKey (anc (L0 ++ E).length i') ∧
              versionedNodeKey (anc (L0 ++ E).length i)
                  ((L0 ++ E).length + 1) ≠
                versionedNodeKey (anc (L0 ++ E).length i')
                  ((L0 ++ E).length + 1) := by
            intro i' h1' h2' h3'
            refine ⟨(nodeKey_ne_versionedNodeKey _ _ _).symm, ?_⟩
            intro hc
            have hanc := anc_le (L0 ++ E).length i i' h1' h3'
            have hb2 : anc (L0 ++ E).length i' < 2 ^ 64 := by
              have := anc_le_double (L0 ++ E).length i' h3'
              omega
            have := versionedNodeKey_inj_idx _ _ _ _ hb1 hb2 hc
            omega
          rw [hframe s1 _ hkeys, commit_append, commit_pair, Store.put_self]

theorem commit_triple (s : Store) (k1 v1 k2 v2 k3 v3 : Bytes) :
    commit s [(k1, v1), (k2, v2), (k3, v3)] =
      Store.put (Store.put (Store.put s k1 v1) k2 v2) k3 v3 := rfl

/-- One iteration of the item loop of `batch_push_with_data`: processing
one more item succeeds, re-establishes the between-items
characterization of `computed_hashes` for the extended leaf list, and
extends the accumulated batch effect by the new leaf record and the new
path-node writes. -/
theorem processItem_spec (Hs : Bytes → Bytes) (hashLen : Nat)
    (hH : ∀ b, (Hs b).length = hashLen) (ser : Bytes → Bytes) (t : Tree)
    (prefetched : Nat → Option Bytes) (L0 E : List Bytes) (v : Bytes)
    (hg : GoodStore Hs L0 t.store) (hpref : PrefOk hashLen t prefetched)
    (hcap : (L0 ++ E).length < 2 ^ 63)
    (batch : WriteBatch) (computed : Nat → Option Bytes)
    (hcomp : CompBetween Hs L0.length (L0 ++ E) computed)
    (hacc : AccEff Hs ser L0.length (L0 ++ E) batch) :
    ∃ batch2 computed2,
      processItem Hs hashLen ser t prefetched
          (batch, computed, (L0 ++ E).length) v =
        .ok (batch2, computed2, (L0 ++ E).length + 1) ∧
      CompBetween Hs L0.length (L0 ++ E ++ [v]) computed2 ∧
      AccEff Hs ser L0.length (L0 ++ E ++ [v]) batch2 := by
  have hSp : L0.length ≤ (L0 ++ E).length := by simp
  have hlenM : (L0 ++ E ++ [v]).length = (L0 ++ E).length + 1 := by
    simp only [List.length_append, List.length_singleton]
  have hleaf : nodeVal Hs (L0 ++ E ++ [v]) 0 (L0 ++ E).length =
      leafHashB Hs v := by
    rw [nodeVal_leaf Hs (L0 ++ E ++ [v]) (L0 ++ E).length (by omega)]
    rw [List.getElem_concat_length (L0 ++ E) v (L0 ++ E).length rfl (by omega)]
  have hcomp0 := compBetween_compAt_zero Hs L0.length (L0 ++ E) v computed hcomp
  simp only [hleaf] at hcomp0
  obtain ⟨batch2, computed2, hrun, hctop, hframe, hnodes⟩ :=
    climbB_spec Hs hashLen hH t prefetched L0 E v hg hpref hcap
      (binSize (L0 ++ E).length) 0 ((L0 ++ E).length + 2)
      (batch ++ [(leafKey (L0 ++ E).length, ser v),
        (nodeKey (2 * (L0 ++ E).length), leafHashB Hs v),
        (versionedNodeKey (2 * (L0 ++ E).length) ((L0 ++ E).length + 1),
          leafHashB Hs v)])
      (fun i => if i = 2 * (L0 ++ E).length then some (leafHashB Hs v)
        else computed i)
      (by omega) (Nat.zero_le _) (Or.inl rfl)
      (by have := binSize_le_self (L0 ++ E).length; omega)
      hcomp0
  simp only [anc_zero, pow_zero, Nat.div_one, hleaf] at hrun hnodes hframe
  refine ⟨batch2, computed2, ?_, compAt_between Hs L0.length (L0 ++ E) v
    computed2 hSp hctop, ?_⟩
  · simp only [processItem, hrun]
  · intro s1
    obtain ⟨haccL, haccN, haccF⟩ := hacc s1
    have hcapM : (L0 ++ E).length < 2 ^ 63 := hcap
    refine ⟨?_, ?_, ?_⟩
    · -- leaf clause
      intro i hi hSi
      rw [hlenM] at hi
      have hkeys : ∀ i', 0 < i' → i' ≤ binSize (L0 ++ E).length →
          onPath (L0 ++ E).length i' →
          leafKey i ≠ nodeKey (anc (L0 ++ E).length i') ∧
          leafKey i ≠ versionedNodeKey (anc (L0 ++ E).length i')
            ((L0 ++ E).length + 1) :=
        fun i' _ _ _ => ⟨(nodeKey_ne_leafKey _ _).symm,
          leafKey_ne_versionedNodeKey _ _ _⟩
      rw [hframe s1 _ hkeys, commit_append, commit_triple,
        Store.put_other _ _ _ _ (leafKey_ne_versionedNodeKey _ _ _),
        Store.put_other _ _ _ _ ((nodeKey_ne_leafKey _ _).symm)]
      by_cases hip : i = (L0 ++ E).length
      · subst hip
        rw [Store.put_self]
        congr 1
        congr 1
        exact (List.getElem_concat_length (L0 ++ E) v (L0 ++ E).length rfl
          (by omega)).symm
      · have hilt : i < (L0 ++ E).length := by omega
        rw [Store.put_other _ _ _ _ (by
          intro hc
          exact hip (leafKey_inj i (L0 ++ E).length (by omega) (by omega) hc))]
        rw [haccL i hilt hSi]
        congr 2
        exact (List.getElem_append_left hilt).symm
    · -- node clause
      intro k a hreal hrange hSM
      rw [hlenM] at hreal hSM
      have hp1 : 1 ≤ 2 ^ k := Nat.one_le_two_pow
      have hcb : canonIdx k a < 2 ^ 64 := by omega
      by_cases hcont : a * 2 ^ k ≤ (L0 ++ E).length ∧
          (L0 ++ E).length < (a + 1) * 2 ^ k
      · have ha' : a = (L0 ++ E).length / 2 ^ k :=
          (Nat.div_eq_of_lt_le hcont.1 hcont.2).symm
        have honp : onPath (L0 ++ E).length k :=
          (anc_realized_iff (L0 ++ E).length k).mp (by
            unfold anc
            rw [← ha']
            omega)
        by_cases hk0 : k = 0
        · subst hk0
          have haz : a = (L0 ++ E).length := by
            simpa using ha'
          subst haz
          have hkeys : ∀ i', 0 < i' → i' ≤ binSize (L0 ++ E).length →
              onPath (L0 ++ E).length i' →
              nodeKey (canonIdx 0 (L0 ++ E).length) ≠
                nodeKey (anc (L0 ++ E).length i') ∧
              nodeKey (canonIdx 0 (L0 ++ E).length) ≠
                versionedNodeKey (anc (L0 ++ E).length i')
                  ((L0 ++ E).length + 1) := by
            intro i' h1' h2' h3'
            refine ⟨?_, nodeKey_ne_versionedNodeKey _ _ _⟩
            intro hc
            have hanc := anc_le (L0 ++ E).length 0 i' h1' h3'
            have hb2 : anc (L0 ++ E).length i' < 2 ^ 64 := by
              have := anc_le_double (L0 ++ E).length i' h3'
              omega
            have h4 := nodeKey_inj _ _ hcb hb2 hc
            rw [anc_zero] at hanc
            rw [canonIdx_zero] at h4
            omega
          rw [hframe s1 _ hkeys, commit_append, commit_triple, canonIdx_zero,
            Store.put_other _ _ _ _ (nodeKey_ne_versionedNodeKey _ _ _),
            Store.put_self, ← hleaf]
        · have hk1 : 0 < k := by omega
          have hkb : k ≤ binSize (L0 ++ E).length := by
            by_contra hcon
            exact not_onPath_gt (L0 ++ E).length k (by omega) honp
          have h := (hnodes s1 k hk1 hkb honp).1
          unfold anc at h
          rw [← ha'] at h
          rw [h]
      · have hshr := canon_realized_shrink k a (L0 ++ E).length (by omega) hcont
        have hkeys : ∀ i', 0 < i' → i' ≤ binSize (L0 ++ E).length →
            onPath (L0 ++ E).length i' →
            nodeKey (canonIdx k a) ≠ nodeKey (anc (L0 ++ E).length i') ∧
            nodeKey (canonIdx k a) ≠
              versionedNodeKey (anc (L0 ++ E).length i')
                ((L0 ++ E).length + 1) := by
          intro i' h1' h2' h3'
          refine ⟨?_, nodeKey_ne_versionedNodeKey _ _ _⟩
          intro hc
          have hb2 : anc (L0 ++ E).length i' < 2 ^ 64 := by
            have := anc_le_double (L0 ++ E).length i' h3'
            omega
          have h4 := nodeKey_inj _ _ hcb hb2 hc
          obtain ⟨hki, hai⟩ := canon_inj k a i' ((L0 ++ E).length / 2 ^ i') h4
          subst hki
          subst hai
          have hdm := Nat.div_add_mod (L0 ++ E).length (2 ^ k)
          have hm := Nat.mod_lt (L0 ++ E).length
            (show 0 < 2 ^ k by positivity)
          have e : ((L0 ++ E).length / 2 ^ k + 1) * 2 ^ k =
              2 ^ k * ((L0 ++ E).length / 2 ^ k) + 2 ^ k := by ring
          omega
        rw [hframe s1 _ hkeys, commit_append, commit_triple,
          Store.put_other _ _ _ _ (nodeKey_ne_versionedNodeKey _ _ _),
          Store.put_other _ _ _ _ (by
            intro hc
            have h2p : (2 : Nat) * (L0 ++ E).length =
                canonIdx 0 (L0 ++ E).length := (canonIdx_zero _).symm
            rw [h2p] at hc
            have hd2 : canonIdx 0 (L0 ++ E).length < 2 ^ 64 := by
              rw [canonIdx_zero]
              omega
            have h4 := nodeKey_inj _ _ hcb hd2 hc
            obtain ⟨hki, hai⟩ := canon_inj k a 0 (L0 ++ E).length h4
            subst hki
            subst hai
            simp only [pow_zero, mul_one] at hshr
            omega),
          Store.put_other _ _ _ _ (nodeKey_ne_leafKey _ _)]
        have hSL : L0.length < (L0 ++ E).length := by omega
        rw [haccN k a hshr.2 hrange hSL]
        rw [nodeVal_stable Hs (L0 ++ E) [v] k a hshr.1]
    · -- frame clause
      intro key hkl hkn hkv
      simp only [hlenM] at hkl hkn hkv
      have hkeys : ∀ i', 0 < i' → i' ≤ binSize (L0 ++ E).length →
          onPath (L0 ++ E).length i' →
          key ≠ nodeKey (anc (L0 ++ E).length i') ∧
          key ≠ versionedNodeKey (anc (L0 ++ E).length i')
            ((L0 ++ E).length + 1) := by
        intro i' h1' h2' h3'
        have hrl := (anc_realized_iff (L0 ++ E).length i').mpr h3'
        unfold anc at hrl
        have hdm := Nat.div_add_mod (L0 ++ E).length (2 ^ i')
        have hm := Nat.mod_lt (L0 ++ E).length
          (show 0 < 2 ^ i' by positivity)
        have e : ((L0 ++ E).length / 2 ^ i' + 1) * 2 ^ i' =
            2 ^ i' * ((L0 ++ E).length / 2 ^ i') + 2 ^ i' := by ring
        exact ⟨hkn i' ((L0 ++ E).length / 2 ^ i') (by omega) (by omega),
          hkv _ _ (by omega) (by omega)⟩
      have hknz : key ≠ nodeKey (2 * (L0 ++ E).length) := by
        have h := hkn 0 (L0 ++ E).length (by rw [canonIdx_zero]; omega)
          (by simp only [pow_zero, mul_one]; omega)
        rwa [canonIdx_zero] at h
      rw [hframe s1 _ hkeys, commit_append, commit_triple,
        Store.put_other _ _ _ _ (hkv (2 * (L0 ++ E).length)
          ((L0 ++ E).length + 1) (by omega) (by omega)),
        Store.put_other _ _ _ _ hknz,
        Store.put_other _ _ _ _ (hkl (L0 ++ E).length hSp (by omega))]
      exact haccF key (fun i h1 h2 => hkl i h1 (by omega))
        (fun k a h1 h2 => hkn k a (by omega) h2)
        (fun x ver h1 h2 => hkv x ver h1 (by omega))

/-- The item loop of `batch_push_with_data`: folding `processItem` over
the items succeeds and accumulates the batch effect for all of them. -/
theorem fold_spec (Hs : Bytes → Bytes) (hashLen : Nat)
    (hH : ∀ b, (Hs b).length = hashLen) (ser : Bytes → Bytes) (t : Tree)
    (prefetched : Nat → Option Bytes) (L0 : List Bytes)
    (hg : GoodStore Hs L0 t.store) (hpref : PrefOk hashLen t prefetched) :
    ∀ (items E : List Bytes) (batch : WriteBatch)
      (computed : Nat → Option Bytes),
      (L0 ++ E).length + items.length ≤ 2 ^ 63 →
      CompBetween Hs L0.length (L0 ++ E) computed →
      AccEff Hs ser L0.length (L0 ++ E) batch →
      ∃ batchF computedF,
        items.foldlM (processItem Hs hashLen ser t prefetched)
            (batch, computed, (L0 ++ E).length) =
          .ok (batchF, computedF, (L0 ++ E).length + items.length) ∧
        CompBetween Hs L0.length (L0 ++ E ++ items) computedF ∧
        AccEff Hs ser L0.length (L0 ++ E ++ items) batchF := by
  intro items
  induction items with
  | nil =>
    intro E batch computed hcap hcomp hacc
    refine ⟨batch, computed, ?_, ?_, ?_⟩
    · simp [pure, Except.pure]
    · simpa using hcomp
    · simpa using hacc
  | cons v rest ih =>
    intro E batch computed hcap hcomp hacc
    have hcap1 : (L0 ++ E).length < 2 ^ 63 := by
      simp only [List.length_append, List.length_cons] at hcap ⊢
      omega
    obtain ⟨batch2, computed2, hrun, hcomp2, hacc2⟩ :=
      processItem_spec Hs hashLen hH ser t prefetched L0 E v hg hpref hcap1
        batch computed hcomp hacc
    have hlen2 : (L0 ++ (E ++ [v])).length = (L0 ++ E).length + 1 := by
      simp only [List.length_append, List.length_cons, List.length_nil]
      omega
    obtain ⟨batchF, computedF, hrunF, hcompF, haccF⟩ :=
      ih (E ++ [v]) batch2 computed2
        (by
          simp only [List.length_append, List.length_cons,
            List.length_nil] at hcap ⊢
          omega)
        (by rwa [List.append_assoc] at hcomp2)
        (by rwa [List.append_assoc] at hacc2)
    rw [hlen2] at hrunF
    have hassoc : L0 ++ (E ++ [v]) ++ rest = L0 ++ E ++ (v :: rest) := by
      simp
    rw [hassoc] at hcompF haccF
    refine ⟨batchF, computedF, ?_, hcompF, haccF⟩
    rw [List.foldlM_cons, hrun]
    have e : (L0 ++ E).length + (v :: rest).length =
        (L0 ++ E).length + 1 + rest.length := by
      simp only [List.length_cons]
      omega
    rw [e]
    simpa [bind, Except.bind] using hrunF

/-- At the start of a batch `computed_hashes` is empty and satisfies the
between-items characterization. -/
theorem compBetween_init (Hs : Bytes → Bytes) (L0 : List Bytes) :
    CompBetween Hs L0.length (L0 ++ []) (fun _ => none) := by
  intro k a
  exact (if_neg (by rintro ⟨-, -, h3⟩; simp at h3)).symm

/-- At the start of a batch the accumulated write batch is empty and has
no effect. -/
theorem accEff_init (Hs : Bytes → Bytes) (ser : Bytes → Bytes)
    (L0 : List Bytes) : AccEff Hs ser L0.length (L0 ++ []) [] := by
  intro s1
  refine ⟨?_, ?_, ?_⟩
  · intro i hi hSi
    simp only [List.append_nil] at hi
    omega
  · intro k a h1 h2 h3
    simp at h3
  · intro key _ _ _
    rfl

/-- `batch_push_with_data` on a well-formed read-write store with a
non-empty item list: the call succeeds, returns the pre-call size, and
commits the accumulated item batch followed by the `META` rewrite and
the extras. -/
theorem bpwd_run (Hs : Bytes → Bytes) (hashLen : Nat)
    (hH : ∀ b, (Hs b).length = hashLen) (ser : Bytes → Bytes) (t : Tree)
    (L0 items : List Bytes) (extras : List (Bytes × Bytes))
    (hg : GoodStore Hs L0 t.store) (hro : t.readOnly = false)
    (hne : items ≠ []) (hcap : L0.length + items.length ≤ 2 ^ 63) :
    ∃ batchF, AccEff Hs ser L0.length (L0 ++ items) batchF ∧
      batchPushWithData Hs hashLen ser t items extras =
        .ok (⟨commit t.store
          (batchF ++ [(metaKey, be64 (L0.length + items.length))] ++ extras),
          false⟩, L0.length) := by
  have hlent : len t = .ok L0.length := len_of_meta t L0.length (by omega)
    hg.meta
  obtain ⟨batchF, computedF, hrunF, hcompF, haccF⟩ :=
    fold_spec Hs hashLen hH ser t
      (prefetchMap hashLen t L0.length items.length) L0 hg
      (prefetchMap_ok hashLen t L0.length items.length) items [] []
      (fun _ => none) (by simp only [List.append_nil]; omega)
      (compBetween_init Hs L0) (accEff_init Hs ser L0)
  simp only [List.append_nil] at hrunF haccF
  refine ⟨batchF, haccF, ?_⟩
  simp only [batchPushWithData, hlent, bind, Except.bind]
  rw [if_neg (by simp [List.isEmpty_iff, hne])]
  rw [hrunF]
  simp only [hro, Bool.false_eq_true, if_false, pure, Except.pure]

/-- `batch_push` on a well-formed read-write store: the call succeeds,
returns the pre-call size, and leaves a well-formed store for the
extended leaf list. -/
theorem batchPush_good (Hs : Bytes → Bytes) (hashLen : Nat)
    (hH : ∀ b, (Hs b).length = hashLen) (ser : Bytes → Bytes) (t : Tree)
    (L0 items : List Bytes)
    (hg : GoodStore Hs L0 t.store) (hro : t.readOnly = false)
    (hcap : L0.length + items.length ≤ 2 ^ 63) :
    ∃ t2, batchPush Hs hashLen ser t items = .ok (t2, L0.length) ∧
      t2.readOnly = false ∧ GoodStore Hs (L0 ++ items) t2.store := by
  by_cases hne : items = []
  · subst hne
    have hlent : len t = .ok L0.length := len_of_meta t L0.length (by omega)
      hg.meta
    refine ⟨t, ?_, hro, by simpa using hg⟩
    simp [batchPush, batchPushWithData, hlent, bind, Except.bind, pure,
      Except.pure]
  · obtain ⟨batchF, hacc, hrun⟩ := bpwd_run Hs hashLen hH ser t L0 items []
      hg hro hne hcap
    simp only [List.append_nil] at hrun
    have hitems : 0 < items.length := List.length_pos.mpr hne
    have hSL : L0.length < (L0 ++ items).length := by
      simp only [List.length_append]
      omega
    have h64 : 2 * (L0 ++ items).length ≤ 2 ^ 64 := by
      simp only [List.length_append]
      omega
    refine ⟨_, hrun, rfl, ?_⟩
    obtain ⟨haccL, haccN, haccF⟩ := hacc t.store
    constructor
    · -- meta
      show commit t.store _ metaKey = _
      rw [commit_append, commit_single, Store.put_self]
      congr 1
      congr 1
      simp only [List.length_append]
    · -- node
      intro k a hreal
      have hp1 : 1 ≤ 2 ^ k := Nat.one_le_two_pow
      show commit t.store _ (nodeKey (canonIdx k a)) = _
      rw [commit_append, commit_single,
        Store.put_other _ _ _ _ (nodeKey_ne_metaKey _)]
      by_cases hrange : L0.length < (a + 1) * 2 ^ k
      · exact haccN k a hreal hrange hSL
      · have hhiS : (a + 1) * 2 ^ k ≤ L0.length := by omega
        have hcb : canonIdx k a < 2 ^ 64 := by omega
        rw [haccF (nodeKey (canonIdx k a))
          (fun i _ _ => nodeKey_ne_leafKey _ _)
          (fun k' a' h1' h2' hc => by
            have hcb2 : canonIdx k' a' < 2 ^ 64 := by omega
            obtain ⟨hk, ha⟩ := canon_inj k a k' a'
              (nodeKey_inj _ _ hcb hcb2 hc)
            subst hk
            subst ha
            omega)
          (fun x ver _ _ => nodeKey_ne_versionedNodeKey _ _ _)]
        rw [hg.node k a (canon_lt_of_range k a L0.length hhiS)]
        rw [nodeVal_stable Hs L0 items k a hhiS]
    · -- nojunk
      intro k a hlt64 hnreal
      show commit t.store _ (nodeKey (canonIdx k a)) = _
      rw [commit_append, commit_single,
        Store.put_other _ _ _ _ (nodeKey_ne_metaKey _)]
      rw [haccF (nodeKey (canonIdx k a))
        (fun i _ _ => nodeKey_ne_leafKey _ _)
        (fun k' a' h1' h2' hc => by
          have hcb2 : canonIdx k' a' < 2 ^ 64 := by omega
          obtain ⟨hk, ha⟩ := canon_inj k a k' a'
            (nodeKey_inj _ _ hlt64 hcb2 hc)
          subst hk
          subst ha
          exact hnreal h1')
        (fun x ver _ _ => nodeKey_ne_versionedNodeKey _ _ _)]
      refine hg.nojunk k a hlt64 ?_
      intro hc
      apply hnreal
      simp only [List.length_append]
      omega

/-- The climb loop of `recalculate_path_batch` (used by `push`), started
at a realized path level `kc` of the new leaf `p = |L0|` on a well-formed
store: it terminates at the root and stages exactly the current- and
versioned-node writes of the strictly higher path levels, each carrying
the reference hash over the extended leaf list. -/
theorem recalcClimb_spec (Hs : Bytes → Bytes) (hashLen : Nat)
    (hH : ∀ b, (Hs b).length = hashLen) (t : Tree) (L0 : List Bytes)
    (v : Bytes) (hg : GoodStore Hs L0 t.store) (hcap : L0.length < 2 ^ 63) :
    ∀ d kc fuel batch computed,
      binSize L0.length - kc = d →
      kc ≤ binSize L0.length →
      onPath L0.length kc →
      d + 1 ≤ fuel →
      CompAt Hs L0.length L0 (L0 ++ [v]) L0.length kc computed →
      ∃ batch2,
        recalcClimb Hs hashLen t (L0.length + 1) fuel (anc L0.length kc)
            batch computed = .ok batch2 ∧
        (∀ s1 key,
          (∀ i, kc < i → i ≤ binSize L0.length → onPath L0.length i →
            key ≠ nodeKey (anc L0.length i) ∧
            key ≠ versionedNodeKey (anc L0.length i) (L0.length + 1)) →
          commit s1 batch2 key = commit s1 batch key) ∧
        (∀ s1 i, kc < i → i ≤ binSize L0.length → onPath L0.length i →
          commit s1 batch2 (nodeKey (anc L0.length i)) =
            some (nodeVal Hs (L0 ++ [v]) i (L0.length / 2 ^ i)) ∧
          commit s1 batch2 (versionedNodeKey (anc L0.length i)
              (L0.length + 1)) =
            some (nodeVal Hs (L0 ++ [v]) i (L0.length / 2 ^ i))) := by
  intro d
  induction d using Nat.strong_induction_on with
  | _ d ih =>
  intro kc fuel batch computed hd hkcle hkcop hfuel hcomp
  obtain ⟨fuel', rfl⟩ : ∃ f, fuel = f + 1 := ⟨fuel - 1, by omega⟩
  by_cases hend : kc = binSize L0.length
  · subst hend
    refine ⟨batch, ?_, fun s1 key h => rfl,
      fun s1 i h1 h2 h3 => absurd h2 (by omega)⟩
    simp only [recalcClimb]
    rw [if_pos (rootIdx_eq_anc L0.length).symm]
  · have hlt : kc < binSize L0.length := by omega
    have hexd : ∃ jj, kc < jj ∧ onPath L0.length jj :=
      ⟨binSize L0.length, hlt, onPath_binSize _⟩
    obtain ⟨j, ⟨hkj, hopj⟩, hmin⟩ : ∃ j, (kc < j ∧ onPath L0.length j) ∧
        ∀ i, i < j → ¬(kc < i ∧ onPath L0.length i) :=
      ⟨Nat.find hexd, Nat.find_spec hexd, fun i h => Nat.find_min hexd h⟩
    have hgap : ∀ i, kc < i → i < j → ¬onPath L0.length i :=
      fun i h1 h2 hop => hmin i h2 ⟨h1, hop⟩
    have hjle : j ≤ binSize L0.length := by
      by_contra hcon
      exact hmin (binSize L0.length) (by omega) ⟨hlt, onPath_binSize _⟩
    have hj1 : 1 ≤ j := by omega
    have hpar : parent (anc L0.length kc) (L0.length + 1) = anc L0.length j :=
      parent_path _ kc j hkj hopj hgap hjle
    have hsibp := sibling_path L0.length kc j hkj hopj hgap hjle
    have hroot_ne : anc L0.length kc ≠ rootIdx (L0.length + 1) := by
      rw [rootIdx_eq_anc]
      have := anc_le L0.length kc (binSize L0.length) hlt (onPath_binSize _)
      omega
    -- the current node is in computed_hashes
    have hcur := hcomp kc (L0.length / 2 ^ kc)
    rw [if_pos ⟨rfl, le_refl kc, hkcop⟩] at hcur
    have hcur2 : computed (anc L0.length kc) =
        some (nodeVal Hs (L0 ++ [v]) kc (L0.length / 2 ^ kc)) := by
      unfold anc
      exact hcur
    -- the sibling: not in computed_hashes, read from the store
    have hq : 2 ^ j = 2 * 2 ^ (j - 1) := by
      conv_lhs => rw [show j = (j - 1) + 1 by omega]
      rw [pow_succ]
      ring
    have hglue := glue_mid L0.length kc j hkj hopj hgap
    have hdmul : L0.length / 2 ^ kc * 2 ^ kc ≤ L0.length :=
      Nat.div_mul_le_self _ _
    have ehi : (2 * (L0.length / 2 ^ j) + 1) * 2 ^ (j - 1) =
        L0.length / 2 ^ j * 2 ^ j + 2 ^ (j - 1) := by
      rw [hq]
      ring
    have hhiS : (2 * (L0.length / 2 ^ j) + 1) * 2 ^ (j - 1) ≤ L0.length := by
      omega
    have hnotpath : 2 * (L0.length / 2 ^ j) ≠ L0.length / 2 ^ (j - 1) := by
      have := div_pred_of_onPath L0.length j hj1 hopj
      omega
    have hsibval : computed (canonIdx (j - 1) (2 * (L0.length / 2 ^ j))) =
        none := by
      have h := hcomp (j - 1) (2 * (L0.length / 2 ^ j))
      rw [if_neg (by rintro ⟨h1, -, -⟩; exact hnotpath h1),
        if_neg (by rintro ⟨-, -, h3⟩; exact absurd h3 (lt_irrefl _))] at h
      exact h
    have hstore := hg.node (j - 1) (2 * (L0.length / 2 ^ j))
      (canon_lt_of_range _ _ _ hhiS)
    have hstlen : (nodeVal Hs L0 (j - 1)
        (2 * (L0.length / 2 ^ j))).length = hashLen :=
      nodeVal_length Hs hashLen hH L0 _ _
    have hstable : nodeVal Hs L0 (j - 1) (2 * (L0.length / 2 ^ j)) =
        nodeVal Hs (L0 ++ [v]) (j - 1) (2 * (L0.length / 2 ^ j)) :=
      (nodeVal_stable Hs L0 [v] _ _ hhiS).symm
    have hphX : parentHashB Hs (nodeVal Hs (L0 ++ [v]) (j - 1)
        (2 * (L0.length / 2 ^ j)))
        (nodeVal Hs (L0 ++ [v]) kc (L0.length / 2 ^ kc)) =
        nodeVal Hs (L0 ++ [v]) j (L0.length / 2 ^ j) :=
      (nodeVal_split Hs (L0 ++ [v]) L0.length kc j
        (by simp only [List.length_append, List.length_singleton])
        hkj hopj hgap).symm
    have hcomp2 := compAt_update Hs L0.length L0 (L0 ++ [v]) L0.length kc j
      computed hcomp hkj hopj hgap
    obtain ⟨batch2, hrun, hframe, hnodes⟩ :=
      ih (binSize L0.length - j) (by omega) j fuel'
        (batch ++ [(nodeKey (anc L0.length j),
            nodeVal Hs (L0 ++ [v]) j (L0.length / 2 ^ j)),
          (versionedNodeKey (anc L0.length j) (L0.length + 1),
            nodeVal Hs (L0 ++ [v]) j (L0.length / 2 ^ j))])
        (fun i => if i = anc L0.length j then
            some (nodeVal Hs (L0 ++ [v]) j (L0.length / 2 ^ j))
          else computed i)
        rfl hjle hopj (by omega) hcomp2
    refine ⟨batch2, ?_, ?_, ?_⟩
    · have hstlen2 : (nodeVal Hs (L0 ++ [v]) (j - 1)
          (2 * (L0.length / 2 ^ j))).length = hashLen :=
        nodeVal_length Hs hashLen hH _ _ _
      simp only [recalcClimb, hcur2, hsibp.2, hsibp.1, hsibval, hstore,
        if_pos hstlen, if_pos hstlen2, hpar, hstable, hphX]
      rw [if_neg hroot_ne]
      simp only [Bool.false_eq_true, if_false]
      exact hrun
    · intro s1 key hkey
      have h1 := hframe s1 key (fun i hi1 hi2 hi3 => hkey i (by omega) hi2 hi3)
      rw [h1, commit_append, commit_pair,
        Store.put_other _ _ _ _ (hkey j hkj hjle hopj).2,
        Store.put_other _ _ _ _ (hkey j hkj hjle hopj).1]
    · intro s1 i hi1 hi2 hi3
      by_cases hij : j < i
      · exact hnodes s1 i hij hi2 hi3
      · have hieq : i = j := by
          by_contra hne
          exact hgap i hi1 (by omega) hi3
        subst hieq
        have hb1 : anc L0.length i < 2 ^ 64 := by
          have := anc_le_double L0.length i hi3
          omega
        constructor
        · have hkeys : ∀ i', i < i' → i' ≤ binSize L0.length →
              onPath L0.length i' →
              nodeKey (anc L0.length i) ≠ nodeKey (anc L0.length i') ∧
              nodeKey (anc L0.length i) ≠
                versionedNodeKey (anc L0.length i') (L0.length + 1) := by
            intro i' h1' h2' h3'
            refine ⟨?_, nodeKey_ne_versionedNodeKey _ _ _⟩
            intro hc
            have hanc := anc_le L0.length i i' h1' h3'
            have hb2 : anc L0.length i' < 2 ^ 64 := by
              have := anc_le_double L0.length i' h3'
              omega
            have := nodeKey_inj _ _ hb1 hb2 hc
            omega
          rw [hframe s1 _ hkeys, commit_append, commit_pair,
            Store.put_other _ _ _ _ (nodeKey_ne_versionedNodeKey _ _ _),
            Store.put_self]
        · have hkeys : ∀ i', i < i' → i' ≤ binSize L0.length →
              onPath L0.length i' →
              versionedNodeKey (anc L0.length i) (L0.length + 1) ≠
                nodeKey (anc L0.length i') ∧
              versionedNodeKey (anc L0.length i) (L0.length + 1) ≠
                versionedNodeKey (anc L0.length i') (L0.length + 1) := by
            intro i' h1' h2' h3'
            refine ⟨(nodeKey_ne_versionedNodeKey _ _ _).symm, ?_⟩
            intro hc
            have hanc := anc_le L0.length i i' h1' h3'
            have hb2 : anc L0.length i' < 2 ^ 64 := by
              have := anc_le_double L0.length i' h3'
              omega
            have := versionedNodeKey_inj_idx _ _ _ _ hb1 hb2 hc
            omega
          rw [hframe s1 _ hkeys, commit_append, commit_pair, Store.put_self]

/-- `recalculate_path_batch` on a well-formed store: it succeeds, and the
produced batch consists of the staged leaf writes plus the current- and
versioned-node writes of the new leaf's path. -/
theorem push_steps (Hs : Bytes → Bytes) (hashLen : Nat)
    (hH : ∀ b, (Hs b).length = hashLen) (ser : Bytes → Bytes) (t : Tree)
    (L0 : List Bytes) (v : Bytes) (hg : GoodStore Hs L0 t.store)
    (hcap : L0.length < 2 ^ 63) :
    ∃ batch2,
      recalculatePathBatch Hs hashLen t [(leafKey L0.length, ser v)]
          L0.length v (L0.length + 1) = .ok batch2 ∧
      (∀ s1 key, (∀ i, 0 < i → i ≤ binSize L0.length → onPath L0.length i →
          key ≠ nodeKey (anc L0.length i) ∧
          key ≠ versionedNodeKey (anc L0.length i) (L0.length + 1)) →
        commit s1 batch2 key = commit s1
          ([(leafKey L0.length, ser v)] ++
            [(nodeKey (2 * L0.length), leafHashB Hs v),
             (versionedNodeKey (2 * L0.length) (L0.length + 1),
               leafHashB Hs v)]) key) ∧
      (∀ s1 i, 0 < i → i ≤ binSize L0.length → onPath L0.length i →
        commit s1 batch2 (nodeKey (anc L0.length i)) =
          some (nodeVal Hs (L0 ++ [v]) i (L0.length / 2 ^ i)) ∧
        commit s1 batch2 (versionedNodeKey (anc L0.length i)
            (L0.length + 1)) =
          some (nodeVal Hs (L0 ++ [v]) i (L0.length / 2 ^ i))) := by
  have hleaf : nodeVal Hs (L0 ++ [v]) 0 L0.length = leafHashB Hs v := by
    rw [nodeVal_leaf Hs (L0 ++ [v]) L0.length (by simp)]
    rw [List.getElem_concat_length L0 v L0.length rfl (by simp)]
  have hcb := compBetween_init Hs L0
  simp only [List.append_nil] at hcb
  have hcomp0 := compBetween_compAt_zero Hs L0.length L0 v (fun _ => none) hcb
  simp only [hleaf] at hcomp0
  obtain ⟨batch2, hrun, hframe, hnodes⟩ :=
    recalcClimb_spec Hs hashLen hH t L0 v hg hcap (binSize L0.length) 0
      (L0.length + 1 + 2)
      ([(leafKey L0.length, ser v)] ++
        [(nodeKey (2 * L0.length), leafHashB Hs v),
         (versionedNodeKey (2 * L0.length) (L0.length + 1), leafHashB Hs v)])
      (fun i => if i = 2 * L0.length then some (leafHashB Hs v) else none)
      rfl (Nat.zero_le _) (Or.inl rfl)
      (by have := binSize_le_self L0.length; omega) hcomp0
  simp only [anc_zero] at hrun
  refine ⟨batch2, ?_, hframe, hnodes⟩
  simp only [recalculatePathBatch]
  exact hrun

/-- `push` on a well-formed read-write store below the fullness
threshold: the call succeeds and leaves a well-formed store for the leaf
list extended by the pushed item. -/
theorem push_good (Hs : Bytes → Bytes) (hashLen : Nat)
    (hH : ∀ b, (Hs b).length = hashLen) (ser : Bytes → Bytes) (t : Tree)
    (L0 : List Bytes) (v : Bytes)
    (hg : GoodStore Hs L0 t.store) (hro : t.readOnly = false)
    (hcap : L0.length < 2 ^ 63 - 1) :
    ∃ t2, push Hs hashLen ser t v = .ok t2 ∧ t2.readOnly = false ∧
      GoodStore Hs (L0 ++ [v]) t2.store := by
  have hlent : len t = .ok L0.length := len_of_meta t L0.length (by omega)
    hg.meta
  have hleaf : nodeVal Hs (L0 ++ [v]) 0 L0.length = leafHashB Hs v := by
    rw [nodeVal_leaf Hs (L0 ++ [v]) L0.length (by simp)]
    rw [List.getElem_concat_length L0 v L0.length rfl (by simp)]
  obtain ⟨batch2, hrun, hframe, hnodes⟩ :=
    push_steps Hs hashLen hH ser t L0 v hg (by omega)
  have hpush : push Hs hashLen ser t v =
      .ok ⟨commit t.store (batch2 ++ [(metaKey, be64 (L0.length + 1))]),
        t.readOnly⟩ := by
    simp only [push, hlent, bind, Except.bind]
    rw [if_neg (by omega), hrun]
    simp only [hro, Bool.false_eq_true, if_false, pure, Except.pure]
  rw [hro] at hpush
  refine ⟨_, hpush, rfl, ?_⟩
  have hp1of : ∀ k : Nat, (1 : Nat) ≤ 2 ^ k := fun k => Nat.one_le_two_pow
  constructor
  · -- meta
    show commit t.store _ metaKey = _
    rw [commit_append, commit_single, Store.put_self]
    congr 1
    congr 1
    simp
  · -- node
    intro k a hreal
    simp only [List.length_append, List.length_singleton] at hreal
    have hp1 : 1 ≤ 2 ^ k := Nat.one_le_two_pow
    have hcb : canonIdx k a < 2 ^ 64 := by omega
    show commit t.store _ (nodeKey (canonIdx k a)) = _
    rw [commit_append, commit_single,
      Store.put_other _ _ _ _ (nodeKey_ne_metaKey _)]
    by_cases hcont : a * 2 ^ k ≤ L0.length ∧ L0.length < (a + 1) * 2 ^ k
    · have ha' : a = L0.length / 2 ^ k :=
        (Nat.div_eq_of_lt_le hcont.1 hcont.2).symm
      have honp : onPath L0.length k :=
        (anc_realized_iff L0.length k).mp (by
          unfold anc
          rw [← ha']
          omega)
      by_cases hk0 : k = 0
      · subst hk0
        have haz : a = L0.length := by simpa using ha'
        subst haz
        have hkeys : ∀ i', 0 < i' → i' ≤ binSize L0.length →
            onPath L0.length i' →
            nodeKey (canonIdx 0 L0.length) ≠ nodeKey (anc L0.length i') ∧
            nodeKey (canonIdx 0 L0.length) ≠
              versionedNodeKey (anc L0.length i') (L0.length + 1) := by
          intro i' h1' h2' h3'
          refine ⟨?_, nodeKey_ne_versionedNodeKey _ _ _⟩
          intro hc
          have hanc := anc_le L0.length 0 i' h1' h3'
          have hb2 : anc L0.length i' < 2 ^ 64 := by
            have := anc_le_double L0.length i' h3'
            omega
          have h4 := nodeKey_inj _ _ hcb hb2 hc
          rw [anc_zero] at hanc
          rw [canonIdx_zero] at h4
          omega
        rw [hframe t.store _ hkeys, canonIdx_zero, commit_append,
          commit_single, commit_pair,
          Store.put_other _ _ _ _ (nodeKey_ne_versionedNodeKey _ _ _),
          Store.put_self, ← hleaf]
      · have hk1 : 0 < k := by omega
        have hkb : k ≤ binSize L0.length := by
          by_contra hcon
          exact not_onPath_gt L0.length k (by omega) honp
        have h := (hnodes t.store k hk1 hkb honp).1
        unfold anc at h
        rw [← ha'] at h
        rw [h]
    · have hshr := canon_realized_shrink k a L0.length (by omega) hcont
      have hkeys : ∀ i', 0 < i' → i' ≤ binSize L0.length →
          onPath L0.length i' →
          nodeKey (canonIdx k a) ≠ nodeKey (anc L0.length i') ∧
          nodeKey (canonIdx k a) ≠
            versionedNodeKey (anc L0.length i') (L0.length + 1) := by
        intro i' h1' h2' h3'
        refine ⟨?_, nodeKey_ne_versionedNodeKey _ _ _⟩
        intro hc
        have hb2 : anc L0.length i' < 2 ^ 64 := by
          have := anc_le_double L0.length i' h3'
          omega
        have h4 := nodeKey_inj _ _ hcb hb2 hc
        obtain ⟨hki, hai⟩ := canon_inj k a i' (L0.length / 2 ^ i') h4
        subst hki
        subst hai
        have hdm := Nat.div_add_mod L0.length (2 ^ k)
        have hm := Nat.mod_lt L0.length (show 0 < 2 ^ k by positivity)
        have e : (L0.length / 2 ^ k + 1) * 2 ^ k =
            2 ^ k * (L0.length / 2 ^ k) + 2 ^ k := by ring
        omega
      rw [hframe t.store _ hkeys, commit_append, commit_single, commit_pair,
        Store.put_other _ _ _ _ (nodeKey_ne_versionedNodeKey _ _ _),
        Store.put_other _ _ _ _ (by
          intro hc
          have h2p : (2 : Nat) * L0.length = canonIdx 0 L0.length :=
            (canonIdx_zero _).symm
          rw [h2p] at hc
          have hd2 : canonIdx 0 L0.length < 2 ^ 64 := by
            rw [canonIdx_zero]
            omega
          have h4 := nodeKey_inj _ _ hcb hd2 hc
          obtain ⟨hki, hai⟩ := canon_inj k a 0 L0.length h4
          subst hki
          subst hai
          simp only [pow_zero, mul_one] at hshr
          omega),
        Store.put_other _ _ _ _ (nodeKey_ne_leafKey _ _)]
      rw [hg.node k a hshr.2]
      rw [nodeVal_stable Hs L0 [v] k a hshr.1]
  · -- nojunk
    intro k a hlt64 hnreal
    simp only [List.length_append, List.length_singleton] at hnreal
    show commit t.store _ (nodeKey (canonIdx k a)) = _
    rw [commit_append, commit_single,
      Store.put_other _ _ _ _ (nodeKey_ne_metaKey _)]
    have hkeys : ∀ i', 0 < i' → i' ≤ binSize L0.length →
        onPath L0.length i' →
        nodeKey (canonIdx k a) ≠ nodeKey (anc L0.length i') ∧
        nodeKey (canonIdx k a) ≠
          versionedNodeKey (anc L0.length i') (L0.length + 1) := by
      intro i' h1' h2' h3'
      refine ⟨?_, nodeKey_ne_versionedNodeKey _ _ _⟩
      intro hc
      have hrl := (anc_realized_iff L0.length i').mpr h3'
      have hb2 : anc L0.length i' < 2 ^ 64 := by
        have := anc_le_double L0.length i' h3'
        omega
      have h4 := nodeKey_inj _ _ hlt64 hb2 hc
      apply hnreal
      rw [h4]
      unfold anc at hrl ⊢
      omega
    rw [hframe t.store _ hkeys, commit_append, commit_single, commit_pair,
      Store.put_other _ _ _ _ (nodeKey_ne_versionedNodeKey _ _ _),
      Store.put_other _ _ _ _ (by
        intro hc
        have h2p : (2 : Nat) * L0.length = canonIdx 0 L0.length :=
          (canonIdx_zero _).symm
        rw [h2p] at hc
        have hd2 : canonIdx 0 L0.length < 2 ^ 64 := by
          rw [canonIdx_zero]
          omega
        have h4 := nodeKey_inj _ _ hlt64 hd2 hc
        apply hnreal
        rw [h4, canonIdx_zero]
        omega),
      Store.put_other _ _ _ _ (nodeKey_ne_leafKey _ _)]
    refine hg.nojunk k a hlt64 ?_
    intro hc
    exact hnreal (by omega)

/-- A freshly initialized store is well formed for the empty leaf
list. -/
theorem goodStore_init (Hs : Bytes → Bytes) : GoodStore Hs [] initTree.store := by
  constructor
  · rfl
  · intro k a h
    simp only [List.length_nil, Nat.mul_zero] at h
    omega
  · intro k a h1 h2
    show Store.put emptyStore metaKey (be64 0) (nodeKey (canonIdx k a)) = none
    rw [Store.put_other _ _ _ _ (nodeKey_ne_metaKey _)]
    rfl

/-- `root` on a well-formed store returns the RFC 6962 reference hash and
the leaf count. -/
theorem root_of_good (Hs : Bytes → Bytes) (hashLen : Nat)
    (hH : ∀ b, (Hs b).length = hashLen) (t : Tree) (L : List Bytes)
    (hg : GoodStore Hs L t.store) (hcap : L.length < 2 ^ 64) :
    root Hs hashLen t = .ok (mth Hs L, L.length) := by
  have hlent : len t = .ok L.length := len_of_meta t L.length hcap hg.meta
  by_cases hz : L.length = 0
  · have hLnil : L = [] := List.length_eq_zero.mp hz
    subst hLnil
    simp only [root, hlent, bind, Except.bind, List.length_nil]
    rfl
  · obtain ⟨p, hp⟩ : ∃ p, L.length = p + 1 := ⟨L.length - 1, by omega⟩
    have hidx : rootIdx L.length = canonIdx (binSize p) 0 := by
      rw [hp, rootIdx_eq_anc]
      unfold anc
      rw [Nat.div_eq_of_lt (lt_two_pow_binSize p)]
    have hreal : canonIdx (binSize p) 0 + 1 < 2 * L.length := by
      have h1 : canonIdx (binSize p) 0 + 1 = 2 ^ binSize p :=
        by rw [canonIdx_add_one]; ring
      rcases Nat.eq_zero_or_pos p with hp0 | hp0
      · subst hp0
        rw [h1, hp, binSize_zero]
        omega
      · have h2 := two_pow_binSize_pred_le p hp0
        have h3 : 2 ^ binSize p = 2 * 2 ^ (binSize p - 1) := by
          conv_lhs => rw [show binSize p = (binSize p - 1) + 1 by
            have := binSize_pos p hp0
            omega]
          rw [pow_succ]
          ring
        rw [h1, hp]
        omega
    have hnode := hg.node (binSize p) 0 hreal
    have hlen2 : (nodeVal Hs L (binSize p) 0).length = hashLen :=
      nodeVal_length Hs hashLen hH L _ _
    have hgnh : getNodeHash hashLen t (rootIdx L.length) =
        .ok (nodeVal Hs L (binSize p) 0) := by
      simp only [getNodeHash, hidx, hnode, if_pos hlen2]
    simp only [root, hlent, bind, Except.bind]
    rw [if_neg hz]
    simp only [hgnh, bind, Except.bind, pure, Except.pure]
    rw [nodeVal_root Hs L p hp]

/-- Running a history of `push` / `batch_push` operations on a
well-formed read-write handle succeeds and leaves a well-formed store
for the extended leaf list. -/
theorem runOps_good (Hs : Bytes → Bytes) (hashLen : Nat)
    (hH : ∀ b, (Hs b).length = hashLen) (ser : Bytes → Bytes) :
    ∀ (ops : List Op) (t : Tree) (L0 : List Bytes),
      GoodStore Hs L0 t.store → t.readOnly = false →
      L0.length + (leavesOf ops).length < 2 ^ 63 - 1 →
      ∃ t2, runOps Hs hashLen ser t ops = .ok t2 ∧ t2.readOnly = false ∧
        GoodStore Hs (L0 ++ leavesOf ops) t2.store := by
  intro ops
  induction ops with
  | nil =>
    intro t L0 hg hro hcap
    exact ⟨t, rfl, hro, by simpa [leavesOf] using hg⟩
  | cons op rest ih =>
    intro t L0 hg hro hcap
    cases op with
    | pushOp v =>
      have hcap1 : L0.length < 2 ^ 63 - 1 := by
        simp only [leavesOf, List.length_cons] at hcap
        omega
      obtain ⟨t1, hpush, hro1, hg1⟩ := push_good Hs hashLen hH ser t L0 v hg
        hro hcap1
      obtain ⟨t2, hrun, hro2, hg2⟩ := ih t1 (L0 ++ [v]) hg1 hro1 (by
        simp only [leavesOf, List.length_cons, List.length_append,
          List.length_nil] at hcap ⊢
        omega)
      refine ⟨t2, ?_, hro2, ?_⟩
      · simp only [runOps, hpush, bind, Except.bind]
        exact hrun
      · have he : L0 ++ [v] ++ leavesOf rest =
            L0 ++ leavesOf (Op.pushOp v :: rest) := by
          simp [leavesOf]
        rwa [he] at hg2
    | batchOp items =>
      have hcap1 : L0.length + items.length ≤ 2 ^ 63 := by
        simp only [leavesOf, List.length_append] at hcap
        omega
      obtain ⟨t1, hbatch, hro1, hg1⟩ := batchPush_good Hs hashLen hH ser t L0
        items hg hro hcap1
      obtain ⟨t2, hrun, hro2, hg2⟩ := ih t1 (L0 ++ items) hg1 hro1 (by
        simp only [leavesOf, List.length_append] at hcap ⊢
        omega)
      refine ⟨t2, ?_, hro2, ?_⟩
      · simp only [runOps, hbatch, bind, Except.bind]
        exact hrun
      · have he : L0 ++ items ++ leavesOf rest =
            L0 ++ leavesOf (Op.batchOp items :: rest) := by
          simp [leavesOf]
        rwa [he] at hg2

/-- Pushing each item of a list individually on a well-formed read-write
handle succeeds and leaves a well-formed store. -/
theorem pushFold_good (Hs : Bytes → Bytes) (hashLen : Nat)
    (hH : ∀ b, (Hs b).length = hashLen) (ser : Bytes → Bytes) :
    ∀ (items : List Bytes) (t : Tree) (L0 : List Bytes),
      GoodStore Hs L0 t.store → t.readOnly = false →
      L0.length + items.length ≤ 2 ^ 63 - 1 →
      ∃ t2, items.foldlM (push Hs hashLen ser) t = .ok t2 ∧
        t2.readOnly = false ∧ GoodStore Hs (L0 ++ items) t2.store := by
  intro items
  induction items with
  | nil =>
    intro t L0 hg hro hcap
    exact ⟨t, rfl, hro, by simpa using hg⟩
  | cons v rest ih =>
    intro t L0 hg hro hcap
    have hcap1 : L0.length < 2 ^ 63 - 1 := by
      simp only [List.length_cons] at hcap
      omega
    obtain ⟨t1, hpush, hro1, hg1⟩ := push_good Hs hashLen hH ser t L0 v hg
      hro hcap1
    obtain ⟨t2, hrun, hro2, hg2⟩ := ih t1 (L0 ++ [v]) hg1 hro1 (by
      simp only [List.length_cons, List.length_append, List.length_nil]
        at hcap ⊢
      omega)
    refine ⟨t2, ?_, hro2, ?_⟩
    · rw [List.foldlM_cons, hpush]
      simpa [bind, Except.bind] using hrun
    · have he : L0 ++ [v] ++ rest = L0 ++ (v :: rest) := by simp
      rwa [he] at hg2

/-- C1: after any sequence of `push` / `batch_push` calls on a freshly
opened tree (staying below the code's fullness threshold `2^63 − 1`),
`root()` returns the RFC 6962 reference Merkle tree hash of the pushed
leaves in order, paired with the leaf count; in particular on the empty
tree `root()` returns `H("")` with reported size 0. -/
theorem runOps_root_rfc (Hs : Bytes → Bytes) (hashLen : Nat)
    (ser : Bytes → Bytes) (ops : List Op)
    (hH : ∀ b, (Hs b).length = hashLen)
    (hcap : (leavesOf ops).length < 2 ^ 63 - 1) :
    (runOps Hs hashLen ser initTree ops).bind (root Hs hashLen) =
      .ok (mth Hs (leavesOf ops), (leavesOf ops).length) ∧
    root Hs hashLen initTree = .ok (Hs [], 0) := by
  constructor
  · obtain ⟨t2, hrun, hro2, hg2⟩ := runOps_good Hs hashLen hH ser ops initTree
      [] (goodStore_init Hs) rfl (by simpa using hcap)
    simp only [List.nil_append] at hg2
    rw [hrun]
    simp only [Except.bind]
    exact root_of_good Hs hashLen hH t2 (leavesOf ops) hg2 (by omega)
  · exact root_of_good Hs hashLen hH initTree [] (goodStore_init Hs)
      (by simp only [List.length_nil]; positivity)

/-- C1 witness: a batch of two leaves followed by a push, under the toy
hash; the root equals the reference hash of the three leaves. -/
theorem c1_witness :
    (runOps tinyHash 2 idSer initTree
        [Op.batchOp [[1], [2]], Op.pushOp [3]]).bind (root tinyHash 2) =
      .ok (mth tinyHash [[1], [2], [3]], 3) ∧
    root tinyHash 2 initTree = .ok (tinyHash [], 0) :=
  runOps_root_rfc tinyHash 2 idSer [Op.batchOp [[1], [2]], Op.pushOp [3]]
    (fun b => rfl) (by norm_num [leavesOf])

/-- C2: for every leaf list `L` and split point `s ≤ |L|` (below the
fullness threshold), the batch construction, the split construction and
the item-wise push construction all succeed and produce the same root —
the RFC 6962 reference root of `L`. -/
theorem batch_split_push_roots (Hs : Bytes → Bytes) (hashLen : Nat)
    (ser : Bytes → Bytes) (L : List Bytes) (s : Nat)
    (hH : ∀ b, (Hs b).length = hashLen) (hs : s ≤ L.length)
    (hcap : L.length < 2 ^ 63 - 1) :
    (batchPush Hs hashLen ser initTree L).bind
        (fun r => root Hs hashLen r.1) =
      .ok (mth Hs L, L.length) ∧
    (batchPush Hs hashLen ser initTree (L.take s)).bind
        (fun r => (batchPush Hs hashLen ser r.1 (L.drop s)).bind
          (fun r2 => root Hs hashLen r2.1)) =
      .ok (mth Hs L, L.length) ∧
    (L.foldlM (push Hs hashLen ser) initTree).bind (root Hs hashLen) =
      .ok (mth Hs L, L.length) := by
  refine ⟨?_, ?_, ?_⟩
  · obtain ⟨t2, hb, hro2, hg2⟩ := batchPush_good Hs hashLen hH ser initTree
      [] L (goodStore_init Hs) rfl
      (by simp only [List.length_nil]; omega)
    simp only [List.nil_append] at hg2
    rw [hb]
    simp only [Except.bind]
    exact root_of_good Hs hashLen hH t2 L hg2 (by omega)
  · obtain ⟨t1, hb1, hro1, hg1⟩ := batchPush_good Hs hashLen hH ser initTree
      [] (L.take s) (goodStore_init Hs) rfl
      (by simp only [List.length_nil, List.length_take]; omega)
    simp only [List.nil_append] at hg1
    obtain ⟨t2, hb2, hro2, hg2⟩ := batchPush_good Hs hashLen hH ser t1
      (L.take s) (L.drop s) hg1 hro1
      (by simp only [List.length_take, List.length_drop]; omega)
    rw [List.take_append_drop s L] at hg2
    rw [hb1]
    simp only [Except.bind]
    rw [hb2]
    simp only [Except.bind]
    exact root_of_good Hs hashLen hH t2 L hg2 (by omega)
  · obtain ⟨t2, hp, hro2, hg2⟩ := pushFold_good Hs hashLen hH ser L initTree
      [] (goodStore_init Hs) rfl (by simp only [List.length_nil]; omega)
    simp only [List.nil_append] at hg2
    rw [hp]
    simp only [Except.bind]
    exact root_of_good Hs hashLen hH t2 L hg2 (by omega)

/-- C2 witness: three single-byte leaves, split at 1, under the toy
hash. -/
theorem c2_witness :
    (batchPush tinyHash 2 idSer initTree [[1], [2], [3]]).bind
        (fun r => root tinyHash 2 r.1) =
      .ok (mth tinyHash [[1], [2], [3]], 3) ∧
    (batchPush tinyHash 2 idSer initTree ([[1], [2], [3]].take 1)).bind
        (fun r => (batchPush tinyHash 2 idSer r.1
          ([[1], [2], [3]].drop 1)).bind
          (fun r2 => root tinyHash 2 r2.1)) =
      .ok (mth tinyHash [[1], [2], [3]], 3) ∧
    ([[1], [2], [3]].foldlM (push tinyHash 2 idSer) initTree).bind
        (root tinyHash 2) =
      .ok (mth tinyHash [[1], [2], [3]], 3) :=
  batch_split_push_roots tinyHash 2 idSer [[1], [2], [3]] 1 (fun b => rfl)
    (by norm_num) (by norm_num)

/-- C9: appending a non-empty item list of length `k` at pre-call size
`S` on a well-formed read-write handle returns `S`; afterwards `len()`
returns `S + k` and `get(S + j)` returns exactly the `j`-th item (the
extras must not collide with the `META` or leaf keys, and the leaf codec
must round-trip). -/
theorem batch_push_appends (Hs : Bytes → Bytes) (hashLen : Nat)
    (ser : Bytes → Bytes) (deser : Bytes → Option Bytes) (t : Tree)
    (L0 items : List Bytes) (extras : List (Bytes × Bytes))
    (hH : ∀ b, (Hs b).length = hashLen)
    (hg : GoodStore Hs L0 t.store) (hro : t.readOnly = false)
    (hne : items ≠ []) (hcap : L0.length + items.length ≤ 2 ^ 63)
    (hexm : ∀ kv ∈ extras, kv.1 ≠ metaKey)
    (hexl : ∀ kv ∈ extras, ∀ i, kv.1 ≠ leafKey i)
    (hdeser : ∀ b, deser (ser b) = some b) :
    (batchPushWithData Hs hashLen ser t items extras).map (fun r => r.2) =
      .ok L0.length ∧
    (batchPushWithData Hs hashLen ser t items extras).bind
        (fun r => len r.1) = .ok (L0.length + items.length) ∧
    ∀ j (hj : j < items.length),
      (batchPushWithData Hs hashLen ser t items extras).bind
        (fun r => get deser r.1 (L0.length + j)) = .ok (some items[j]) := by
  obtain ⟨batchF, hacc, hrun⟩ := bpwd_run Hs hashLen hH ser t L0 items extras
    hg hro hne hcap
  obtain ⟨haccL, haccN, haccF⟩ := hacc t.store
  have hmeta : commit t.store
      (batchF ++ [(metaKey, be64 (L0.length + items.length))] ++ extras)
      metaKey = some (be64 (L0.length + items.length)) := by
    rw [commit_append, commit_notin _ extras metaKey
      (fun kv hkv => hexm kv hkv), commit_append, commit_single,
      Store.put_self]
  refine ⟨?_, ?_, ?_⟩
  · rw [hrun]
    rfl
  · rw [hrun]
    simp only [Except.bind]
    exact len_of_meta _ _ (by omega) hmeta
  · intro j hj
    rw [hrun]
    simp only [Except.bind]
    have hleafv : commit t.store
        (batchF ++ [(metaKey, be64 (L0.length + items.length))] ++ extras)
        (leafKey (L0.length + j)) = some (ser items[j]) := by
      rw [commit_append, commit_notin _ extras _
        (fun kv hkv => hexl kv hkv (L0.length + j)), commit_append,
        commit_single, Store.put_other _ _ _ _ (leafKey_ne_metaKey _)]
      have hlt : L0.length + j < (L0 ++ items).length := by
        simp only [List.length_append]
        omega
      rw [haccL (L0.length + j) hlt (by omega)]
      congr 2
      rw [List.getElem_append_right (by omega)]
      congr 1
      omega
    simp only [get, hleafv, hdeser]

/-- C9 witness: three items with one namespaced extra pair on a fresh
tree; the third item is read back from index 2. -/
theorem c9_witness :
    (batchPushWithData tinyHash 2 idSer initTree [[9], [8], [7]]
        [([120], [5])]).map (fun r => r.2) = .ok 0 ∧
    (batchPushWithData tinyHash 2 idSer initTree [[9], [8], [7]]
        [([120], [5])]).bind (fun r => len r.1) = .ok 3 ∧
    (batchPushWithData tinyHash 2 idSer initTree [[9], [8], [7]]
        [([120], [5])]).bind (fun r => get idDeser r.1 2) =
      .ok (some [7]) := by
  have h := batch_push_appends tinyHash 2 idSer idDeser initTree []
    [[9], [8], [7]] [([120], [5])] (fun b => rfl) (goodStore_init tinyHash)
    rfl (by decide) (by decide)
    (by decide)
    (by
      intro kv hkv i
      simp only [List.mem_singleton] at hkv
      subst hkv
      show ¬[120] = leafKey i
      intro hc
      have := congrArg List.length hc
      simp [leafKey, be64] at this)
    (fun b => rfl)
  exact ⟨h.1, h.2.1, h.2.2 2 (by decide)⟩

/-- C6 amended: on a read-only handle over a well-formed store below the
fullness threshold, `push` and `batch_push_with_data` with non-empty
items fail with the capitalized message `"Cannot write to read-only
database"`; an error means no store is committed, so the durable state
is unchanged. -/
theorem readonly_write_fails (Hs : Bytes → Bytes) (hashLen : Nat)
    (ser : Bytes → Bytes) (t : Tree) (L : List Bytes) (v : Bytes)
    (items : List Bytes) (extras : List (Bytes × Bytes))
    (hH : ∀ b, (Hs b).length = hashLen)
    (hg : GoodStore Hs L t.store) (hro : t.readOnly = true)
    (hne : items ≠ []) (hcapb : L.length + items.length ≤ 2 ^ 63)
    (hcapp : L.length < 2 ^ 63 - 1) :
    push Hs hashLen ser t v =
      .error (.inconsistentState "Cannot write to read-only database") ∧
    batchPushWithData Hs hashLen ser t items extras =
      .error (.inconsistentState "Cannot write to read-only database") := by
  have hlent : len t = .ok L.length := len_of_meta t L.length (by omega)
    hg.meta
  constructor
  · obtain ⟨batch2, hrunp, -, -⟩ := push_steps Hs hashLen hH ser t L v hg
      (by omega)
    simp only [push, hlent, bind, Except.bind]
    rw [if_neg (by omega), hrunp]
    simp only [hro, if_true]
  · obtain ⟨batchF, computedF, hrunF, -, -⟩ :=
      fold_spec Hs hashLen hH ser t
        (prefetchMap hashLen t L.length items.length) L hg
        (prefetchMap_ok hashLen t L.length items.length) items [] []
        (fun _ => none) (by simp only [List.append_nil]; omega)
        (compBetween_init Hs L) (accEff_init Hs ser L)
    simp only [List.append_nil] at hrunF
    simp only [batchPushWithData, hlent, bind, Except.bind]
    rw [if_neg (by simp [List.isEmpty_iff, hne])]
    rw [hrunF]
    simp only [hro, if_true]
    rfl

/-- C6 witness: a read-only handle over a freshly initialized store. -/
theorem c6_witness :
    push tinyHash 2 idSer (fromReader initTree.store) [1] =
      .error (.inconsistentState "Cannot write to read-only database") ∧
    batchPushWithData tinyHash 2 idSer (fromReader initTree.store)
        [[1]] [] =
      .error (.inconsistentState "Cannot write to read-only database") :=
  readonly_write_fails tinyHash 2 idSer (fromReader initTree.store) [] [1]
    [[1]] [] (fun b => rfl) (goodStore_init tinyHash) rfl (by decide)
    (by decide) (by decide)

/-- C8: when a needed sibling hash is in neither `computed_hashes` nor
the prefetch map, lies below the ghost bound `2·current_num_leaves`, and
the fallback store read returns no value, the loop substitutes the
all-zero hash of the output width; concretely, on a size-1 tree whose
`node:0` entry was lost, a batch append of one item completes without
error and folds the zero hash into the new root node. -/
theorem zero_fill_missing_sibling (Hs : Bytes → Bytes) (hashLen : Nat)
    (v : Bytes) :
    (∀ (t : Tree) (prefetched computed : Nat → Option Bytes) (cn s : Nat),
      computed s = none → s < cn * 2 → prefetched s = none →
      t.store (nodeKey s) = none →
      lookupSib hashLen t prefetched computed cn s =
        .ok (zeroHash hashLen)) ∧
    (batchPush Hs hashLen idSer (corruptTree Hs hashLen) [v]).map
        (fun r => (r.2, r.1.store (nodeKey 1))) =
      .ok (1, some (parentHashB Hs (zeroHash hashLen)
        (leafHashB Hs v))) := by
  constructor
  · intro t prefetched computed cn s h1 h2 h3 h4
    simp only [lookupSib, h1, h3, h4]
    rw [if_neg (by omega)]
  · rfl

/-- C8 witness: the zero substitution on a concrete instance, and the
corrupted size-1 tree scenario under the toy hash. -/
theorem c8_witness :
    lookupSib 2 (fromReader emptyStore) (fun _ => none) (fun _ => none)
        1 0 = .ok (zeroHash 2) ∧
    (batchPush tinyHash 2 idSer (corruptTree tinyHash 2) [[7]]).map
        (fun r => (r.2, r.1.store (nodeKey 1))) =
      .ok (1, some (parentHashB tinyHash (zeroHash 2)
        (leafHashB tinyHash [7]))) :=
  ⟨(zero_fill_missing_sibling tinyHash 2 [7]).1 (fromReader emptyStore)
      (fun _ => none) (fun _ => none) 1 0 rfl (by decide) rfl rfl,
   (zero_fill_missing_sibling tinyHash 2 [7]).2⟩

/-- A successful `get_node_hash` read is a current-node store value of
the hash width. -/
theorem getNodeHash_ok (hashLen : Nat) (t : Tree) (x : Nat) (y : Bytes)
    (h : getNodeHash hashLen t x = .ok y) :
    t.store (nodeKey x) = some y ∧ y.length = hashLen := by
  unfold getNodeHash at h
  rcases hs : t.store (nodeKey x) with _ | b
  · rw [hs] at h
    cases h
  · simp only [hs] at h
    by_cases hl : b.length = hashLen
    · rw [if_pos hl] at h
      cases h
      exact ⟨rfl, hl⟩
    · rw [if_neg hl] at h
      cases h

/-- A successful `mapM` of `get_node_hash` pairs each index with its
current-node store value. -/
theorem mapM_getNodeHash (hashLen : Nat) (t : Tree) :
    ∀ (xs : List Nat) (hs : List Bytes),
      xs.mapM (getNodeHash hashLen t) = .ok hs →
      List.Forall₂ (fun x hsh => t.store (nodeKey x) = some hsh ∧
        hsh.length = hashLen) xs hs := by
  intro xs
  induction xs with
  | nil =>
    intro hs h
    simp only [List.mapM_nil, pure, Except.pure] at h
    cases h
    exact List.Forall₂.nil
  | cons x rest ih =>
    intro hs h
    rw [List.mapM_cons] at h
    rcases hx : getNodeHash hashLen t x with e | y
    · rw [hx] at h
      simp only [bind, Except.bind] at h
      cases h
    · rw [hx] at h
      simp only [bind, Except.bind] at h
      rcases hr : rest.mapM (getNodeHash hashLen t) with e | ys
      · rw [hr] at h
        cases h
      · rw [hr] at h
        simp only [pure, Except.pure] at h
        cases h
        exact List.Forall₂.cons (getNodeHash_ok hashLen t x y hx) (ih ys hr)

/-- C3 amended: every hash of a consistency proof produced by
`prove_consistency_between` is fetched from the current-node entry of
its index (via `get_node_hash_internal`); the versioned entries keyed at
version `N` are not consulted. -/
theorem consistency_proof_uses_current_nodes (hashLen : Nat) (t : Tree)
    (m N : Nat) (hs : List Bytes) (hm : 0 < m) (hmN : m < N)
    (h : proveConsistencyBetween hashLen t m N = .ok hs) :
    List.Forall₂ (fun x hsh => t.store (nodeKey x) = some hsh ∧
        hsh.length = hashLen)
      (indicesForConsistencyProof m (N - m)) hs := by
  simp only [proveConsistencyBetween] at h
  rw [if_neg (by omega), if_neg (by omega), if_neg (by omega)] at h
  rcases hlen : len t with e | cs
  · rw [hlen] at h
    simp only [bind, Except.bind] at h
    cases h
  · rw [hlen] at h
    simp only [bind, Except.bind] at h
    split at h
    · cases h
    · exact mapM_getNodeHash hashLen t _ hs h

/-- C3 counterexample: on an eight-leaf tree under the toy hash, the
proof for sizes `3 → 7` returns the current-node value `[5, 233]` at
index 11, while the versioned entry `(11, 7)` holds `[5, 122]` — so the
hashes are not fetched from the versioned entries keyed at `N`. -/
theorem c3_cex :
    len cexTree = .ok 8 ∧
    proveConsistencyBetween 2 cexTree 3 7 =
      .ok [[5, 226], [2, 203], [2, 204], [5, 233]] ∧
    indicesForConsistencyProof 3 4 = [1, 4, 6, 11] ∧
    cexTree.store (versionedNodeKey 11 7) = some [5, 122] ∧
    ([5, 233] : Bytes) ≠ [5, 122] :=
  ⟨rfl, rfl, rfl, rfl, by decide⟩

/-- C3 witness: the current-node characterization applied to the
concrete proof of the counterexample tree. -/
theorem c3_witness :
    List.Forall₂ (fun x hsh => cexTree.store (nodeKey x) = some hsh ∧
        hsh.length = 2)
      (indicesForConsistencyProof 3 4)
      [[5, 226], [2, 203], [2, 204], [5, 233]] :=
  consistency_proof_uses_current_nodes 2 cexTree 3 7
    [[5, 226], [2, 203], [2, 204], [5, 233]] (by omega) (by omega) rfl

/-- C9 counterexample: an extra pair keyed at `leaf:0` is committed
after the item writes of the same batch and overwrites the leaf record,
so `get(0)` returns the extra's value instead of the appended item. -/
theorem c9_cex :
    (batchPushWithData tinyHash 2 idSer initTree [[1]]
        [(leafKey 0, [99])]).bind (fun r => get idDeser r.1 0) =
      .ok (some [99]) ∧
    ([99] : Bytes) ≠ [1] :=
  ⟨rfl, by decide⟩

/-- C6 counterexample: the read-only failure message is capitalized
(`"Cannot …"`), not the claimed lowercase string. -/
theorem c6_cex :
    push tinyHash 2 idSer roTree [1] =
      .error (.inconsistentState "Cannot write to read-only database") ∧
    "Cannot write to read-only database" ≠
      "cannot write to read-only database" :=
  ⟨rfl, by decide⟩

end CompactLog
